import Mathlib

/-!
Verification of the `nai2hta` tag-extraction program against its design
specification.  The Python sources (`nai2hta.py`, `nai2hta/prompt.py`) are
shallowly embedded: strings become `List Char`, generators become lists,
exceptions become `Except`, the SQLite-backed tag archive becomes a pure
record of table contents, and the `parsec` combinator grammar becomes an
executable parser over an input cursor.
-/

namespace Nai2hta

/-- Strings are modelled as lists of characters. -/
abbrev Str := List Char

/-- Conversion from Lean string literals, used to write concrete inputs. -/
def toL (s : String) : Str := s.toList

/-! ## Python string primitives

Each definition mirrors one Python `str` operation as used by `nai2hta.py`.
-/

/-- Python's `\s` character class (`re` module) on the ASCII range: space,
tab, newline, carriage return, vertical tab, form feed.  (Unicode
whitespace beyond ASCII is not modelled; all metadata handled by the
program is ASCII.) -/
def pyIsSpace (c : Char) : Bool :=
  c = ' ' || c = '\t' || c = '\n' || c = '\r' || c = '\x0b' || c = '\x0c'

/-- Python `str.lower` on the ASCII range: map `A`-`Z` to `a`-`z`,
written as an explicit table. -/
def lowerChar : Char → Char
  | 'A' => 'a' | 'B' => 'b' | 'C' => 'c' | 'D' => 'd' | 'E' => 'e' | 'F' => 'f'
  | 'G' => 'g' | 'H' => 'h' | 'I' => 'i' | 'J' => 'j' | 'K' => 'k' | 'L' => 'l'
  | 'M' => 'm' | 'N' => 'n' | 'O' => 'o' | 'P' => 'p' | 'Q' => 'q' | 'R' => 'r'
  | 'S' => 's' | 'T' => 't' | 'U' => 'u' | 'V' => 'v' | 'W' => 'w' | 'X' => 'x'
  | 'Y' => 'y' | 'Z' => 'z'
  | c => c

/-- Python `str.lower` applied to a whole string. -/
def lowerStr (s : Str) : Str := s.map lowerChar

mutual

/-- `WS.sub(" ", s)` where `WS = re.compile(r"\s+")` (`nai2hta.py:18`):
replace every maximal run of whitespace by a single space. -/
def wsSub : Str → Str
  | [] => []
  | c :: rest => if pyIsSpace c then ' ' :: wsDrop rest else c :: wsSub rest

/-- Helper of `wsSub`: skip the remainder of a whitespace run. -/
def wsDrop : Str → Str
  | [] => []
  | c :: rest => if pyIsSpace c then wsDrop rest else c :: wsSub rest

end

/-- Python `s.split(sep)` for a single-character separator: keeps empty
pieces, `"".split(sep) = [""]`. -/
def splitOnC (sep : Char) : Str → List Str
  | [] => [[]]
  | c :: rest =>
    match splitOnC sep rest with
    | [] => [[]]
    | g :: gs => if c = sep then [] :: g :: gs else (c :: g) :: gs

/-- Python `s.split(sep, 1)[0]` for a single-character separator: the text
before the first occurrence of `sep` (the whole string when `sep` is
absent, so the `if ":" in tag` guard in the source is subsumed). -/
def takeUntilC (sep : Char) : Str → Str
  | [] => []
  | c :: rest => if c = sep then [] else c :: takeUntilC sep rest

/-- Python `s.startswith(pat)`. -/
def startsWith : Str → Str → Bool
  | [], _ => true
  | _ :: _, [] => false
  | c :: ps, d :: ss => c = d && startsWith ps ss

/-- Python `s.split(pat, 1)` for a non-empty multi-character separator:
`some (before, after)` at the first occurrence, `none` when absent. -/
def splitOnceSub (pat : Str) : Str → Option (Str × Str)
  | [] => none
  | c :: rest =>
    if startsWith pat (c :: rest) then some ([], (c :: rest).drop pat.length)
    else
      match splitOnceSub pat rest with
      | some (pre, post) => some (c :: pre, post)
      | none => none

/-- Strip characters of `set` from the left end (Python `str.strip` is the
composition of this on both ends). -/
def stripL (set : List Char) : Str → Str
  | [] => []
  | c :: rest => if c ∈ set then stripL set rest else c :: rest

/-- Python `s.strip(chars)`: remove characters of `set` from both ends. -/
def stripBoth (set : List Char) (s : Str) : Str :=
  (stripL set (stripL set s).reverse).reverse

/-- Python `s.strip()` with no argument: strip whitespace from both ends. -/
def pyStrip (s : Str) : Str :=
  ((s.dropWhile pyIsSpace).reverse.dropWhile pyIsSpace).reverse

/-- The punctuation set `"(){}[], "` stripped by the pragmatic extractor
(`nai2hta.py:151`). -/
def stripSet : List Char := ['(', ')', '{', '}', '[', ']', ',', ' ']

/-! ## The pragmatic line extractor and model aliasing (`nai2hta.py`) -/

/-- `parse_tags` (`nai2hta.py:146-152`): collapse whitespace, split on `|`
then on `,`, keep the text before the first `:`, strip edge punctuation,
lowercase, drop empties.  The generator is modelled as the list of yielded
tags in order. -/
def parse_tags (tags : Str) : List Str :=
  (splitOnC '|' (wsSub tags)).flatMap fun mixing =>
    (splitOnC ',' mixing).filterMap fun tag =>
      if lowerStr (stripBoth stripSet (takeUntilC ':' tag)) = [] then none
      else some (lowerStr (stripBoth stripSet (takeUntilC ':' tag)))

/-- `identify_model` (`nai2hta.py:155-161`): last space-delimited token,
lowercased, passed through the fixed alias table. -/
def identify_model (name : Str) : Str :=
  let last := lowerStr ((splitOnC ' ' name).getLastD [])
  if last = toL "81274d13" ∨ last = toL "925997e9" then toL "full"
  else if last = toL "1d44365e" ∨ last = toL "1d4a34af" then toL "curated"
  else last

/-- `Tag = str | tuple[str, str]` (`nai2hta.py:16`): a plain tag or a
namespaced `(namespace, value)` pair. -/
inductive Tag where
  | plain (t : Str)
  | ns (n : Str) (v : Str)
deriving DecidableEq, Repr

/-- Python exceptions raised by the code under study. -/
inductive PyErr where
  | keyError
  | valueError
  | typeError
  | jsonError
deriving DecidableEq, Repr

instance instDecEqExcept {ε α : Type} [DecidableEq ε] [DecidableEq α] :
    DecidableEq (Except ε α) := fun a b =>
  match a, b with
  | .error e, .error e' =>
    if h : e = e' then isTrue (by rw [h]) else isFalse (fun he => by cases he; exact h rfl)
  | .error _, .ok _ => isFalse (fun he => by cases he)
  | .ok _, .error _ => isFalse (fun he => by cases he)
  | .ok v, .ok v' =>
    if h : v = v' then isTrue (by rw [h]) else isFalse (fun he => by cases he; exact h rfl)

/-! ## Dialect B translator: `derive_sd_tags` (`nai2hta.py:175-209`) -/

/-- The literal line marker `"Negative prompt: "` (17 characters). -/
def negMarker : Str := toL "Negative prompt: "

/-- The prompt-line loop of `derive_sd_tags` (`nai2hta.py:181-189`) over
`lines[:-1]`, threading the `is_uc` flag. -/
def sdPromptTags : List Str → Bool → List Tag
  | [], _ => []
  | line :: rest, is_uc =>
    let line' := if startsWith negMarker line then line.drop 17 else line
    let uc' := if startsWith negMarker line then true else is_uc
    (if uc' then (parse_tags line').map (fun t => Tag.ns (toL "uc") t)
     else (parse_tags line').map Tag.plain) ++ sdPromptTags rest uc'

/-- The parameter loop of `derive_sd_tags` (`nai2hta.py:191-209`) over the
comma-split, lowercased final line.  An entry without a `": "` separator
makes the tuple unpacking raise `ValueError`. -/
def sdParams : List Str → Except PyErr (List Tag)
  | [] => .ok []
  | param :: rest =>
    match splitOnceSub (toL ": ") (pyStrip param) with
    | none => .error .valueError
    | some (key, value) =>
      let t? : Option Tag :=
        if key = toL "size" then none
        else if key = toL "model hash" then
          some (.ns (toL "model") (identify_model value))
        else if key = toL "cfg scale" then some (.ns (toL "scale") value)
        else if key = toL "sampler" then
          some (.ns key (if value = toL "euler a" then toL "k_euler_ancestral"
                         else if value = toL "euler" then toL "k_euler" else value))
        else some (.ns key value)
      match sdParams rest with
      | .error e => .error e
      | .ok ts => .ok (match t? with | none => ts | some t => t :: ts)

/-- `derive_sd_tags` (`nai2hta.py:175-209`).  The generator is modelled as
the full list of yielded tags; an exception anywhere while draining it
(as `set(...)` does in `derive_tags`) discards all yields, hence
`Except`. -/
def derive_sd_tags (info : Str) : Except PyErr (List Tag) :=
  let lines := splitOnC '\n' info
  if lines.length < 2 then .ok []
  else
    match sdParams (splitOnC ',' (lowerStr (lines.getLastD []))) with
    | .error e => .error e
    | .ok ps => .ok (sdPromptTags lines.dropLast false ++ ps)

/-! ## Dialect A translator: `derive_novel_ai_tags` (`nai2hta.py:164-172`)

The `Comment` field is fed to `json.loads`.  We model the JSON values the
program can encounter; a number is kept as its source lexeme, so `str()`
of a parsed number is modelled as that lexeme (Python would re-render the
parsed int/float, which agrees on the canonical metadata the program
reads). -/

/-- JSON values as produced by `json.loads`. -/
inductive JVal where
  | null
  | bool (b : Bool)
  | num (lex : Str)
  | str (s : Str)
  | arr (xs : List JVal)
  | obj (fs : List (Str × JVal))

/-- JSON insignificant whitespace. -/
def jIsWs (c : Char) : Bool := c = ' ' || c = '\t' || c = '\n' || c = '\r'

/-- Decode a JSON string body after the opening quote; returns the decoded
characters and the rest after the closing quote. -/
def jString : Str → Option (Str × Str)
  | [] => none
  | '"' :: rest => some ([], rest)
  | '\\' :: e :: rest =>
    (match e with
     | '"' => some '"' | '\\' => some '\\' | '/' => some '/'
     | 'n' => some '\n' | 't' => some '\t' | 'r' => some '\r'
     | 'b' => some '\x08' | 'f' => some '\x0c' | _ => none).bind fun c =>
      (jString rest).map fun (s, r) => (c :: s, r)
  | c :: rest => (jString rest).map fun (s, r) => (c :: s, r)

/-- Is `c` an ASCII digit. -/
def isDigit (c : Char) : Bool := '0' ≤ c && c ≤ '9'

/-- Lex a JSON number starting at the head; returns the lexeme and rest. -/
def jNumber (s : Str) : Option (Str × Str) :=
  let (sign, s₁) := match s with | '-' :: r => (['-'], r) | _ => (([] : Str), s)
  let int := s₁.takeWhile isDigit
  if int = [] then none
  else
    let s₂ := s₁.dropWhile isDigit
    let (frac, s₃) :=
      match s₂ with
      | '.' :: r =>
        if (r.takeWhile isDigit) = [] then (([] : Str), s₂)
        else ('.' :: r.takeWhile isDigit, r.dropWhile isDigit)
      | _ => (([] : Str), s₂)
    some (sign ++ int ++ frac, s₃)

mutual

/-- Fuel-bounded recursive-descent JSON value parser (leading whitespace
skipped); returns the value and the unconsumed rest. -/
def jParse : Nat → Str → Option (JVal × Str)
  | 0, _ => none
  | fuel + 1, s =>
    match s.dropWhile jIsWs with
    | 'n' :: 'u' :: 'l' :: 'l' :: r => some (.null, r)
    | 't' :: 'r' :: 'u' :: 'e' :: r => some (.bool true, r)
    | 'f' :: 'a' :: 'l' :: 's' :: 'e' :: r => some (.bool false, r)
    | '"' :: r => (jString r).map fun (v, r') => (JVal.str v, r')
    | '[' :: r =>
      (match r.dropWhile jIsWs with
       | ']' :: r' => some (JVal.arr [], r')
       | _ => (jElems fuel r).map fun (xs, r') => (JVal.arr xs, r'))
    | '{' :: r =>
      (match r.dropWhile jIsWs with
       | '}' :: r' => some (JVal.obj [], r')
       | _ => (jMembers fuel r).map fun (fs, r') => (JVal.obj fs, r'))
    | r => (jNumber r).map fun (lex, r') => (JVal.num lex, r')

/-- Comma-separated array elements up to the closing bracket. -/
def jElems : Nat → Str → Option (List JVal × Str)
  | 0, _ => none
  | fuel + 1, s =>
    (jParse fuel s).bind fun (v, r) =>
      match r.dropWhile jIsWs with
      | ',' :: r' => (jElems fuel r').map fun (xs, r'') => (v :: xs, r'')
      | ']' :: r' => some ([v], r')
      | _ => none

/-- Comma-separated object members up to the closing brace. -/
def jMembers : Nat → Str → Option (List (Str × JVal) × Str)
  | 0, _ => none
  | fuel + 1, s =>
    match s.dropWhile jIsWs with
    | '"' :: r =>
      (jString r).bind fun (k, r₁) =>
        match r₁.dropWhile jIsWs with
        | ':' :: r₂ =>
          (jParse fuel r₂).bind fun (v, r₃) =>
            match r₃.dropWhile jIsWs with
            | ',' :: r₄ => (jMembers fuel r₄).map fun (fs, r₅) => ((k, v) :: fs, r₅)
            | '}' :: r₄ => some ([(k, v)], r₄)
            | _ => none
        | _ => none
    | _ => none

end

/-- Python `json.loads`: parse one JSON value, tolerating surrounding
whitespace; anything else raises `json.JSONDecodeError`. -/
def jsonLoads (s : Str) : Except PyErr JVal :=
  match jParse (s.length + 1) s with
  | some (v, r) => if r.dropWhile jIsWs = [] then .ok v else .error .jsonError
  | none => .error .jsonError

/-- Python `str(...)` of a JSON-decoded value, as used on parameter values
(`nai2hta.py:171`): `None`/`True`/`False` render as their Python names, a
number renders as its lexeme, a string as itself.  (Containers would
render as Python reprs; the program never meets them on well-formed
metadata, and any rendering is observationally irrelevant to the claims.) -/
def pyStr : JVal → Str
  | .null => toL "None"
  | .bool true => toL "True"
  | .bool false => toL "False"
  | .num lex => lex
  | .str s => s
  | .arr _ => toL "[...]"
  | .obj _ => toL "{...}"

/-- First-match association lookup (Python `dict` access on the mappings
the program reads; keys are unique in practice). -/
def getItem {α : Type} : List (Str × α) → Str → Option α
  | [], _ => none
  | (k, v) :: rest, key => if k = key then some v else getItem rest key

/-- `derive_novel_ai_tags` (`nai2hta.py:164-172`).  The generator is
modelled as the list of yielded tags; a missing field raises `KeyError`,
an unparseable `Comment` raises `JSONDecodeError`, subscripting a
non-object or extracting a non-string `uc` raises `TypeError`, all
surfacing when `derive_tags` drains the generator with `set(...)`. -/
def derive_novel_ai_tags (info : List (Str × Str)) : Except PyErr (List Tag) :=
  match getItem info (toL "Description") with
  | none => .error .keyError
  | some desc =>
    match getItem info (toL "Source") with
    | none => .error .keyError
    | some src =>
      match getItem info (toL "Comment") with
      | none => .error .keyError
      | some comment =>
        match jsonLoads comment with
        | .error e => .error e
        | .ok params =>
          match params with
          | .obj fs =>
            match getItem fs (toL "uc") with
            | some (.str uc) =>
              .ok ((parse_tags desc).map Tag.plain
                   ++ [Tag.ns (toL "model") (identify_model src)]
                   ++ (parse_tags uc).map (fun t => Tag.ns (toL "uc") t)
                   ++ [toL "steps", toL "sampler", toL "seed", toL "scale",
                       toL "noise", toL "strength"].map (fun p =>
                        Tag.ns p (lowerStr (pyStr ((getItem fs p).getD .null)))))
            | some _ => .error .typeError
            | none => .error .keyError
          | _ => .error .typeError

/-- `derive_tags` (`nai2hta.py:212-223`), starting from the metadata
mapping `im.info` that the external image reader produced (reading the
image container itself is out of scope).  Any exception raised by a
translator is caught, printed and converted to `None`; `set(...)` is
modelled as the list of yields. -/
def derive_tags (info : List (Str × Str)) : Option (List Tag) :=
  if getItem info (toL "Software") = some (toL "NovelAI") then
    match derive_novel_ai_tags info with
    | .ok ts => some ts
    | .error _ => none
  else
    match getItem info (toL "parameters") with
    | some params =>
      if params = [] then none
      else
        match derive_sd_tags params with
        | .ok ts => some ts
        | .error _ => none
    | none => none

/-! ## The tag archive store: class `HTA` (`nai2hta.py:44-142`)

The SQLite database is modelled as a record of table contents; rows appear
in insertion (rowid) order, which is the order unordered `SELECT`s return
them.  The in-memory side of the handle (`_tags`, `_namespaces`,
`_last_hash_id`, `_last_tag_id`) is carried alongside.  A raised exception
is modelled as `Except.error` carrying the state as of the raise. -/

/-- Is `c` an ASCII hexadecimal digit. -/
def isHexDigit (c : Char) : Bool :=
  ('0' ≤ c && c ≤ '9') || ('a' ≤ c && c ≤ 'f') || ('A' ≤ c && c ≤ 'F')

/-- Numeric value of an ASCII hexadecimal digit. -/
def hexVal (c : Char) : Nat :=
  if '0' ≤ c && c ≤ '9' then c.toNat - '0'.toNat
  else if 'a' ≤ c && c ≤ 'f' then c.toNat - 'a'.toNat + 10
  else c.toNat - 'A'.toNat + 10

/-- Python `bytes.fromhex` (`nai2hta.py:94`): pairs of hex digits, ASCII
whitespace allowed between pairs; anything else (odd digit count,
non-hex character, whitespace inside a pair) raises `ValueError`,
modelled as `none`. -/
def fromhex : Str → Option (List Nat)
  | [] => some []
  | c :: rest =>
    if pyIsSpace c then fromhex rest
    else
      match rest with
      | [] => none
      | d :: rest' =>
        if isHexDigit c && isHexDigit d then
          (fromhex rest').map (fun bs => (16 * hexVal c + hexVal d) :: bs)
        else none

/-- Contents of the four schema tables plus the `hash_type` marker
(`HTA_SCHEMA`, `nai2hta.py:22-41`).  `hashType = none` models a fresh
file in which no tables exist yet. -/
structure Store where
  hashType : Option Nat
  hashes : List (Nat × List Nat)
  tags : List (Nat × Str)
  namespaces : List Str
  mappings : List (Nat × Nat)
deriving DecidableEq, Repr

/-- The store right after `executescript(HTA_SCHEMA)`: empty tables and
the marker row `hash_type = 2`. -/
def emptyStore : Store :=
  { hashType := some 2, hashes := [], tags := [], namespaces := [], mappings := [] }

/-- `SELECT MAX(id) ... or 0`: the largest assigned identity, `0` when the
table is empty. -/
def maxId {α : Type} (l : List (Nat × α)) : Nat :=
  l.foldr (fun r acc => max r.1 acc) 0

/-- An open archive handle: the backing store plus the in-memory caches
`_tags`, `_namespaces` and the identity high-water marks. -/
structure HTA where
  store : Store
  tags : List (Str × Nat)
  namespaces : List Str
  lastHashId : Nat
  lastTagId : Nat
deriving DecidableEq, Repr

/-- Fatal store failures (`executescript` on a database whose `hash_type`
marker exists but holds an unexpected value fails because the tables
already exist, and nothing catches that). -/
inductive StoreErr where
  | schemaError
deriving DecidableEq, Repr

/-- `HTA.__init__`/`_load` (`nai2hta.py:66-91`): initialize the schema if
the marker is absent, then set `_tags = {}`, read the namespace set and
the current maximum identities. -/
def HTA.load (s : Store) : Except StoreErr HTA :=
  match s.hashType with
  | some 2 =>
    .ok { store := s, tags := [], namespaces := s.namespaces,
          lastHashId := maxId s.hashes, lastTagId := maxId s.tags }
  | none =>
    .ok { store := emptyStore, tags := [], namespaces := [],
          lastHashId := 0, lastTagId := 0 }
  | some _ => .error .schemaError

/-- `SELECT id FROM table WHERE key = ?` for a two-column table: the first
row in rowid order whose second column matches. -/
def findIdBySnd {β : Type} [DecidableEq β] : List (Nat × β) → β → Option Nat
  | [], _ => none
  | (i, b) :: rest, target => if b = target then some i else findIdBySnd rest target

/-- `SELECT hash_id FROM hashes WHERE hash = ?` (`nai2hta.py:97`). -/
def findIdByBytes : List (Nat × List Nat) → List Nat → Option Nat := findIdBySnd

/-- `SELECT tag_id FROM tags WHERE tag = ?` (`nai2hta.py:126`). -/
def findIdByText : List (Nat × Str) → Str → Option Nat := findIdBySnd

/-- `HTA._ensure_hash` (`nai2hta.py:93-107`): decode the hex (raising
`ValueError` on bad input, before any store access), return the existing
`hash_id` or insert a fresh `_last_hash_id + 1`. -/
def HTA.ensureHash (h : HTA) (fileHash : Str) : Except (PyErr × HTA) (Nat × HTA) :=
  match fromhex fileHash with
  | none => .error (.valueError, h)
  | some bytes =>
    match findIdByBytes h.store.hashes bytes with
    | some id => .ok (id, h)
    | none =>
      let id := h.lastHashId + 1
      .ok (id, { h with
                   store := { h.store with hashes := h.store.hashes ++ [(id, bytes)] },
                   lastHashId := id })

/-- Canonical text of a tag: `f"{ns}:{tag}"` for a namespaced tag
(`nai2hta.py:121`), the bare text otherwise. -/
def canonical : Tag → Str
  | .plain v => v
  | .ns n v => n ++ ':' :: v

/-- The namespace-registration step of `HTA._ensure_tag`
(`nai2hta.py:116-121`): an unseen namespace of a namespaced tag is added
to the `namespaces` table and the in-memory set. -/
def ensureNs (h : HTA) (t : Tag) : HTA :=
  match t with
  | .plain _ => h
  | .ns n _ =>
    if n ∈ h.namespaces then h
    else { h with
             store := { h.store with namespaces := h.store.namespaces ++ [n] },
             namespaces := n :: h.namespaces }

/-- The resolution step of `HTA._ensure_tag` (`nai2hta.py:123-133`):
resolve the canonical text through the `_tags` cache, the `tags` table
(caching a hit), or a fresh insert at `_last_tag_id + 1` (which, as in
the source, does not populate the cache). -/
def resolveTag (h₁ : HTA) (tag : Str) : Nat × HTA :=
  match getItem h₁.tags tag with
  | some cached => (cached, h₁)
  | none =>
    match findIdByText h₁.store.tags tag with
    | some id => (id, { h₁ with tags := (tag, id) :: h₁.tags })
    | none =>
      (h₁.lastTagId + 1,
       { h₁ with
           store := { h₁.store with tags := h₁.store.tags ++ [(h₁.lastTagId + 1, tag)] },
           lastTagId := h₁.lastTagId + 1 })

/-- `HTA._ensure_tag` (`nai2hta.py:109-133`): register the namespace if
needed, then resolve the canonical text. -/
def HTA.ensureTag (h : HTA) (t : Tag) : Nat × HTA :=
  resolveTag (ensureNs h t) (canonical t)

/-- `INSERT OR IGNORE INTO mappings`: appending an absent pair, ignoring a
present one (the `(hash_id, tag_id)` pair is the primary key). -/
def insertMapping (ms : List (Nat × Nat)) (p : Nat × Nat) : List (Nat × Nat) :=
  if p ∈ ms then ms else ms ++ [p]

/-- One iteration of the set comprehension in `add_tags`
(`nai2hta.py:137`): resolve one tag, record its membership pair. -/
def addTagsStep (hashId : Nat) (acc : HTA × List (Nat × Nat)) (t : Tag) :
    HTA × List (Nat × Nat) :=
  ((acc.1.ensureTag t).2, acc.2 ++ [(hashId, (acc.1.ensureTag t).1)])

/-- `HTA.add_tags` (`nai2hta.py:135-139`): resolve the hash, resolve every
tag (the Python set comprehension is modelled as iteration in list order;
its deduplication of pairs is subsumed by `INSERT OR IGNORE`), then
insert the membership pairs. -/
def HTA.addTags (h : HTA) (fileHash : Str) (tagList : List Tag) :
    Except (PyErr × HTA) HTA :=
  match h.ensureHash fileHash with
  | .error e => .error e
  | .ok (hashId, h₁) =>
    let acc := tagList.foldl (addTagsStep hashId) (h₁, ([] : List (Nat × Nat)))
    .ok { acc.1 with
            store := { acc.1.store with
                         mappings := acc.2.foldl insertMapping acc.1.store.mappings } }

/-- The archive invariants of §3 of the design document, tracked for one
open handle: identities are 1-based and bounded by the in-memory
high-water marks, each identity and each identity key (hash bytes, tag
text) appears in at most one row, and the `_tags` cache only holds pairs
that are persisted. -/
def WF (h : HTA) : Prop :=
  (∀ r ∈ h.store.hashes, 1 ≤ r.1 ∧ r.1 ≤ h.lastHashId) ∧
  h.store.hashes.Pairwise (fun a b => a.1 ≠ b.1 ∧ a.2 ≠ b.2) ∧
  (∀ r ∈ h.store.tags, 1 ≤ r.1 ∧ r.1 ≤ h.lastTagId) ∧
  h.store.tags.Pairwise (fun a b => a.1 ≠ b.1 ∧ a.2 ≠ b.2) ∧
  (∀ c ∈ h.tags, (c.2, c.1) ∈ h.store.tags)

instance decWF : DecidablePred WF := fun h => by unfold WF; infer_instance

/-- `l₁` is an initial segment of `l₂`: existing rows are preserved, in
place, by an operation that takes `l₁` to `l₂`. -/
def SubStart {α : Type} (l₁ l₂ : List α) : Prop := ∃ t, l₁ ++ t = l₂

/-! ## The prompt grammar parser (`nai2hta/prompt.py`)

The grammar is written with the `parsec.py` combinator library; the
combinators the grammar uses are embedded over an input cursor
`(text, index)`.  A parser either succeeds at a new index or fails at an
offending index (the library also carries an "expected" message, which
affects no control flow and is dropped).  Semantics follow the library:
`|` tries its second alternative only when the first failed without
consuming; the repeaters (`many`, `times`, the separated family) match as
much as they can, stop on a failed iteration, and break off when an
iteration succeeds without consuming (the library's infinite-loop
protection); `optional` never fails; `/` (excepts) fails exactly when its
lookahead succeeds; `<` (ends_with) checks a terminator without consuming
it.  Repetition carries fuel `text.length + 1`: every continuing
iteration strictly advances the index and no parser of this grammar
advances past `text.length`, so the fuel never runs out on the grammar
below.  The embedding is validated against the seven cases of
`nai2hta/tests/test_prompt.py` in the theorem section. -/

/-- Outcome of running a parser: the `parsec.py` `Value`. -/
inductive PResult (α : Type) where
  | ok (index : Nat) (value : α)
  | err (index : Nat)
deriving DecidableEq, Repr

/-- A parser over a `(text, index)` cursor. -/
abbrev Parser (α : Type) := Str → Nat → PResult α

/-- `parsecmap`. -/
def pmap {α β : Type} (f : α → β) (p : Parser α) : Parser β := fun t i =>
  match p t i with
  | .ok j v => .ok j (f v)
  | .err j => .err j

/-- Discard a parser's value. -/
def toUnit {α : Type} (p : Parser α) : Parser Unit := pmap (fun _ => ()) p

/-- `>>` (compose): sequence, keeping the second value. -/
def pcompose {α β : Type} (p : Parser α) (q : Parser β) : Parser β := fun t i =>
  match p t i with
  | .err j => .err j
  | .ok j _ => q t j

/-- `<<` (skip): sequence, keeping the first value. -/
def pskip {α β : Type} (p : Parser α) (q : Parser β) : Parser α := fun t i =>
  match p t i with
  | .err j => .err j
  | .ok j v =>
    match q t j with
    | .ok k _ => .ok k v
    | .err k => .err k

/-- `<` (ends_with): sequence, keeping the first value and not consuming
the second parser's input. -/
def pendsWith {α β : Type} (p : Parser α) (q : Parser β) : Parser α := fun t i =>
  match p t i with
  | .err j => .err j
  | .ok j v =>
    match q t j with
    | .ok _ _ => .ok j v
    | .err k => .err k

/-- `/` (excepts): succeed as `p`, unless `q` succeeds on the rest. -/
def pexcepts {α β : Type} (p : Parser α) (q : Parser β) : Parser α := fun t i =>
  match p t i with
  | .err j => .err j
  | .ok j v =>
    match q t j with
    | .ok _ _ => .err j
    | .err _ => .ok j v

/-- `|` (choice): try `q` only when `p` failed without consuming. -/
def pchoice {α : Type} (p q : Parser α) : Parser α := fun t i =>
  match p t i with
  | .ok j v => .ok j v
  | .err j => if j = i then q t i else .err j

/-- `+` (joint): sequence, pairing the values. -/
def pjoint {α β : Type} (p : Parser α) (q : Parser β) : Parser (α × β) := fun t i =>
  match p t i with
  | .err j => .err j
  | .ok j v =>
    match q t j with
    | .err k => .err k
    | .ok k w => .ok k (v, w)

/-- `lookahead`: run `p` without consuming. -/
def plookahead {α : Type} (p : Parser α) : Parser α := fun t i =>
  match p t i with
  | .ok _ v => .ok i v
  | .err j => .err j

/-- `optional`: never fails, `none` on failure of `p`. -/
def poptional {α : Type} (p : Parser α) : Parser (Option α) := fun t i =>
  match p t i with
  | .ok j v => .ok j (some v)
  | .err _ => .ok i none

/-- Fuelled loop of `many`: stop on failure or on an iteration that
consumed nothing. -/
def manyAux {α : Type} (p : Parser α) (t : Str) : Nat → Nat → List α → PResult (List α)
  | 0, i, acc => .ok i acc.reverse
  | fuel + 1, i, acc =>
    match p t i with
    | .err _ => .ok i acc.reverse
    | .ok j v => if j = i then .ok i acc.reverse else manyAux p t fuel j (v :: acc)

/-- `many`. -/
def pmany {α : Type} (p : Parser α) : Parser (List α) := fun t i =>
  manyAux p t (t.length + 1) i []

/-- `many1`: the first iteration must succeed. -/
def pmany1 {α : Type} (p : Parser α) : Parser (List α) := fun t i =>
  match p t i with
  | .err j => .err j
  | .ok j v =>
    match pmany p t j with
    | .ok k vs => .ok k (v :: vs)
    | .err k => .err k

/-- Fuelled loop of `sepBy1` after the first item: a separator is consumed
only when another item follows it. -/
def sepByAux {α β : Type} (p : Parser α) (sep : Parser β) (t : Str) :
    Nat → Nat → List α → PResult (List α)
  | 0, i, acc => .ok i acc.reverse
  | fuel + 1, i, acc =>
    match sep t i with
    | .err _ => .ok i acc.reverse
    | .ok j _ =>
      match p t j with
      | .err _ => .ok i acc.reverse
      | .ok k v => if k = j then .ok i acc.reverse else sepByAux p sep t fuel k (v :: acc)

/-- `sepBy1`: one or more `p` separated by `sep`, no trailing separator
consumed. -/
def psepBy1 {α β : Type} (p : Parser α) (sep : Parser β) : Parser (List α) := fun t i =>
  match p t i with
  | .err j => .err j
  | .ok j v => sepByAux p sep t (t.length + 1) j [v]

/-- Fuelled loop of `sepEndBy`. -/
def sepEndByAux {α β : Type} (p : Parser α) (sep : Parser β) (t : Str) :
    Nat → Nat → List α → PResult (List α)
  | 0, i, acc => .ok i acc.reverse
  | fuel + 1, i, acc =>
    match p t i with
    | .err _ => .ok i acc.reverse
    | .ok j v =>
      if j = i then .ok i acc.reverse
      else
        match sep t j with
        | .err _ => .ok j (v :: acc).reverse
        | .ok k _ => sepEndByAux p sep t fuel k (v :: acc)

/-- `sepEndBy`: zero or more `p` separated and optionally ended by `sep`. -/
def psepEndBy {α β : Type} (p : Parser α) (sep : Parser β) : Parser (List α) := fun t i =>
  sepEndByAux p sep t (t.length + 1) i []

/-- Length of the longest common initial run of two strings. -/
def matchedLen : Str → Str → Nat
  | [], _ => 0
  | _ :: _, [] => 0
  | c :: cs, d :: ds => if c = d then matchedLen cs ds + 1 else 0

/-- `string(s)`: on a mismatch, fail at the end of the partly matched
run (for the single-character tokens of this grammar: at the start). -/
def stringP (s : Str) : Parser Str := fun t i =>
  if matchedLen s (t.drop i) = s.length then .ok (i + s.length) s
  else .err (i + matchedLen s (t.drop i))

/-- `regex(r"X+")` for a character class: maximal non-empty run. -/
def takeWhileP (pred : Char → Bool) : Parser Str := fun t i =>
  if (t.drop i).takeWhile pred = [] then .err i
  else .ok (i + ((t.drop i).takeWhile pred).length) ((t.drop i).takeWhile pred)

/-- The word character class `[^\s\[\]\{\}\(\),:|]` (`prompt.py:58`). -/
def isWordChar (c : Char) : Bool :=
  !(pyIsSpace c || c = '[' || c = ']' || c = '{' || c = '}' ||
    c = '(' || c = ')' || c = ',' || c = ':' || c = '|')

/-- The optional fraction `(?:\.\d+)?` of the number regex at the head
of the rest after the integer digits. -/
def fracPart : Str → Str
  | '.' :: r => if r.takeWhile isDigit = [] then [] else '.' :: r.takeWhile isDigit
  | _ => []

/-- Unsigned part of the number regex: `\d+(?:\.\d+)?` at the head. -/
def numLexCore (s₁ : Str) : Option Str :=
  if s₁.takeWhile isDigit = [] then none
  else some (s₁.takeWhile isDigit ++ fracPart (s₁.dropWhile isDigit))

/-- Lexeme of the number regex `-?\d+(?:\.\d+)?` at the head of `s`. -/
def numLex (s : Str) : Option Str :=
  match s with
  | '-' :: r => (numLexCore r).map (fun body => '-' :: body)
  | _ => numLexCore s

/-- `regex(r"-?\d+(?:\.\d+)?")` (`prompt.py:57`). -/
def regexNumP : Parser Str := fun t i =>
  match numLex (t.drop i) with
  | some lex => .ok (i + lex.length) lex
  | none => .err i

/-- Value of a decimal digit string. -/
def digitsToNat (s : Str) : Nat := s.foldl (fun acc c => 10 * acc + (c.toNat - '0'.toNat)) 0

/-- Python `float` of a matched number lexeme, modelled exactly as a
rational (the IEEE rounding of the Python `float` is not modelled; the
program never computes with weights, only stores their presence). -/
def lexToRat (lex : Str) : ℚ :=
  let (neg, body) := match lex with | '-' :: r => (true, r) | _ => (false, lex)
  let int := body.takeWhile isDigit
  let frac : Str := match body.dropWhile isDigit with | '.' :: r => r | _ => []
  let n : Int := Int.ofNat (digitsToNat (int ++ frac))
  mkRat (if neg then -n else n) (10 ^ frac.length)

/-- `eof()`: succeed without consuming at or past the end of input. -/
def eofP : Parser Unit := fun t i => if t.length ≤ i then .ok i () else .err i

/-- `recognize` (`prompt.py:22-31`): run `p`, yield the consumed slice. -/
def recognizeP {α : Type} (p : Parser α) : Parser Str := fun t i =>
  match p t i with
  | .ok j _ => .ok j ((t.drop i).take (j - i))
  | .err j => .err j

/-- Sequence two unit parsers (a `joint` whose tuple is discarded). -/
def seqU (p q : Parser Unit) : Parser Unit := fun t i =>
  match p t i with
  | .err j => .err j
  | .ok j _ => q t j

/-- `ignore = many(whitespace)` (`prompt.py:37-38`). -/
def ignoreP : Parser (List Str) := pmany (takeWhileP pyIsSpace)

/-- `lexeme` (`prompt.py:41-42`): a token followed by ignored whitespace. -/
def lexeme {α : Type} (p : Parser α) : Parser α := pskip p ignoreP

def lparen : Parser Str := lexeme (stringP ['('])

def rparen : Parser Str := lexeme (stringP [')'])

def lbracket : Parser Str := lexeme (stringP ['['])

def rbracket : Parser Str := lexeme (stringP [']'])

def lbrace : Parser Str := lexeme (stringP ['{'])

def rbrace : Parser Str := lexeme (stringP ['}'])

def colonP : Parser Str := lexeme (stringP [':'])

def pipeP : Parser Str := lexeme (stringP ['|'])

def commaP : Parser Str := lexeme (stringP [','])

def newlineP : Parser Str := lexeme (stringP ['\n'])

/-- `number` (`prompt.py:57`). -/
def numberP : Parser ℚ := pmap lexToRat (lexeme regexNumP)

/-- `word` (`prompt.py:58`). -/
def wordP : Parser Str := lexeme (takeWhileP isWordChar)

/-- `sep = lexeme(many1(comma | newline))` (`prompt.py:59`). -/
def sepP : Parser (List Str) := lexeme (pmany1 (pchoice commaP newlineP))

/-- One parsed group: its tag-text fragments and optional weight. -/
abbrev TagGroup := List Str × Option ℚ

/-- The rebinding `end = pipe | end` at the head of `tags`
(`prompt.py:63`). -/
def tagsEndp (endP : Parser Unit) : Parser Unit := pchoice (toUnit pipeP) endP

/-- The first `tag` binding of `tags` (`prompt.py:65`): one or more words
or colons-not-starting-a-weight, recognized as a slice.  The heterogeneous
value types of the Python alternation are erased to `Unit`, as the library
too discards them inside `recognize`. -/
def tagA (endP : Parser Unit) : Parser Str :=
  recognizeP (pmany1 (pchoice (toUnit wordP)
    (pexcepts (toUnit colonP) (pendsWith numberP (tagsEndp endP)))))

/-- The second `tag` binding of `tags` (`prompt.py:66`): a tag optionally
interleaved with literal parenthesized sub-runs. -/
def tagB (endP : Parser Unit) : Parser Str :=
  recognizeP (seqU (toUnit (tagA endP))
    (toUnit (pmany (pchoice (toUnit (tagA endP))
      (seqU (toUnit lparen) (seqU (toUnit (tagA endP))
        (pchoice (toUnit rparen) (toUnit (plookahead (tagsEndp endP))))))))))

/-- `tags(end)` (`prompt.py:62-68`): pipe-separated alternatives, each a
separator-delimited tag list with an optional `: number` weight. -/
def tagsP (endP : Parser Unit) : Parser (List TagGroup) :=
  psepBy1 (pjoint (psepEndBy (tagB endP) sepP) (poptional (pcompose colonP numberP))) pipeP

/-- `multi_delimited` (`prompt.py:34-35`): `many1(begin) >> inner <<
many1(end)`. -/
def multiDelimited {α β γ : Type} (b : Parser α) (inner : Parser γ) (e : Parser β) :
    Parser γ :=
  pskip (pcompose (pmany1 b) inner) (pmany1 e)

/-- `weighted_tags` (`prompt.py:71-75`). -/
def weightedTags : Parser (List TagGroup) :=
  pchoice (multiDelimited lparen (tagsP (toUnit rparen)) rparen)
    (pchoice (multiDelimited lbracket (tagsP (toUnit rbracket)) rbracket)
      (multiDelimited lbrace (tagsP (toUnit rbrace)) rbrace))

/-- `prompt` (`prompt.py:78-80`): segments concatenated in source order
(`sum(v, start=[])`). -/
def promptP : Parser (List TagGroup) :=
  pmap (fun gs => gs.flatten)
    (pmany (pskip (pchoice weightedTags (tagsP eofP)) (poptional sepP)))

/-- One run of `parse` (`prompt.py:83-84`): `parse_strict` appends an
`eof` check (`self < eof()`). -/
def topRun (text : Str) : PResult (List TagGroup) :=
  pendsWith (pcompose ignoreP promptP) eofP text 0

/-- `parse` (`prompt.py:83-84`): the parsed groups, or the offending
offset of the `ParseError`. -/
def parse (text : Str) : Except Nat (List TagGroup) :=
  match topRun text with
  | .ok _ v => .ok v
  | .err j => .error j

/-! ## Concrete values used by the claim theorems -/

/-- Is this tag a namespaced tag in the `size` namespace. -/
def isSizeNs : Tag → Bool
  | .ns n _ => n = toL "size"
  | .plain _ => false

/-- The Dialect B scenario input of §8 of the design document. -/
def c2Input : Str :=
  toL "1girl, solo\nNegative prompt: lowres, bad anatomy\nSteps: 20, Sampler: Euler a, CFG scale: 7, Size: 512x512, Model hash: abc123"

/-- The tag set the design document expects for `c2Input`. -/
def c2Expected : List Tag :=
  [.plain (toL "1girl"), .plain (toL "solo"),
   .ns (toL "uc") (toL "lowres"), .ns (toL "uc") (toL "bad anatomy"),
   .ns (toL "steps") (toL "20"), .ns (toL "sampler") (toL "k_euler_ancestral"),
   .ns (toL "scale") (toL "7"), .ns (toL "model") (toL "abc123")]

/-- A persisted store holding one tag row and one namespace row. -/
def c6Store : Store :=
  { hashType := some 2, hashes := [(1, [171, 205])],
    tags := [(1, toL "uc:lowres"), (2, toL "1girl")],
    namespaces := [toL "uc"], mappings := [(1, 1), (1, 2)] }

/-- A freshly initialized archive handle (`HTA` opened on a new file). -/
def freshHTA : HTA :=
  { store := emptyStore, tags := [], namespaces := [], lastHashId := 0, lastTagId := 0 }

/-- The handle `HTA.load` produces for `c6Store`. -/
def c6Loaded : HTA :=
  { store := c6Store, tags := [], namespaces := [toL "uc"], lastHashId := 1, lastTagId := 2 }

/-- A parser whose success index never leaves the input. -/
def Bounded {α : Type} (p : Parser α) : Prop :=
  ∀ (t : Str) (i j : Nat) (v : α), i ≤ t.length → p t i = .ok j v → j ≤ t.length

/-- A string in the whitespace normal form `WS.sub(" ", ·)` produces:
every whitespace character is a plain space and no two spaces are
adjacent. -/
def normWs : Str → Bool
  | [] => true
  | [c] => !pyIsSpace c || c = ' '
  | c :: d :: rest => (!pyIsSpace c || c = ' ') && !(c = ' ' && d = ' ') && normWs (d :: rest)

/-- The shape invariant of every tag the pragmatic extractor emits:
non-empty, free of the structural separators, whitespace-normalized,
already lowercase, and with no strippable punctuation at either end. -/
def GoodTag (t : Str) : Prop :=
  t ≠ [] ∧ (∀ c ∈ t, c ≠ '|' ∧ c ≠ ',' ∧ c ≠ ':') ∧ normWs t = true ∧
  lowerStr t = t ∧
  (∀ c, t.head? = some c → c ∉ stripSet) ∧
  (∀ c, t.getLast? = some c → c ∉ stripSet)

/-! # Theorems

## Validation of the grammar embedding against `nai2hta/tests/test_prompt.py`

Every case of the repository's own parser test suite holds of the
embedding, pinning down the combinator semantics. -/

theorem promptTest_empty : parse (toL "") = .ok [] := by decide

theorem promptTest_basic : parse (toL "foo, bar") = .ok [([toL "foo", toL "bar"], none)] := by
  decide

theorem promptTest_weighted_brace :
    parse (toL "{foo, bar}") = .ok [([toL "foo", toL "bar"], none)] := by decide

theorem promptTest_weighted_bracket :
    parse (toL "[foo, bar]") = .ok [([toL "foo", toL "bar"], none)] := by decide

theorem promptTest_weighted_paren :
    parse (toL "(foo, bar)") = .ok [([toL "foo", toL "bar"], none)] := by decide

theorem promptTest_real_weights :
    parse (toL "(masterpiece:1.157625), (best quality:1.157625), 1girl, solo, science fiction,")
      = .ok [([toL "masterpiece"], some (mkRat 1157625 1000000)),
             ([toL "best quality"], some (mkRat 1157625 1000000)),
             ([toL "1girl", toL "solo", toL "science fiction"], none)] := by decide

theorem promptTest_real_parenthetical :
    parse (toL "bronya zaychik (silverwing: n-ex)|masterpiece")
      = .ok [([toL "bronya zaychik (silverwing: n-ex)"], none),
             ([toL "masterpiece"], none)] := by decide

theorem promptTest_real_weight_after_parenthetical :
    parse (toL "black dress, yuuka (blue archive):0.5|masterpiece")
      = .ok [([toL "black dress", toL "yuuka (blue archive)"], some (mkRat 1 2)),
             ([toL "masterpiece"], none)] := by decide

/-! ## Helper lemmas -/

/-- Splitting on an absent separator yields the whole string. -/
theorem splitOnC_eq_single {sep : Char} {s : Str} (h : sep ∉ s) : splitOnC sep s = [s] := by
  induction s with
  | nil => rfl
  | cons c rest ih =>
    have hc : ¬c = sep := fun hh => h (by rw [hh]; exact List.mem_cons_self _ _)
    have hrest : sep ∉ rest := fun hh => h (List.mem_cons_of_mem _ hh)
    rw [splitOnC, ih hrest]
    simp [hc]

/-! ## Claim C2: the Dialect B scenario -/

/-- C2: Dialect B translation of the §8 scenario input yields exactly the
expected tags — prompt tags, negative tags under `uc`, renamed and
aliased parameters — and no tag in the `size` namespace. -/
theorem c2_dialect_b_scenario :
    derive_sd_tags c2Input = .ok c2Expected ∧
    c2Expected.all (fun t => !isSizeNs t) = true := by decide

/-! ## Claim C3: repeated identical delimiters collapse -/

/-- C3: `parse("{{{foo}}} bar")` yields exactly the two groups
`(["foo"], None)` and `(["bar"], None)`, in that order: repeated identical
delimiters collapse to one group boundary and content after a closed
group starts a new segment. -/
theorem c3_repeated_delimiters_collapse :
    parse (toL "{{{foo}}} bar") = .ok [([toL "foo"], none), ([toL "bar"], none)] := by
  decide

/-! ## Claim C9: single-line Dialect B input -/

/-- C9: on any input without a newline, `derive_sd_tags` returns before
touching the parameter logic, yielding no tags and no error. -/
theorem c9_single_line_no_tags (s : Str) (h : '\n' ∉ s) : derive_sd_tags s = .ok [] := by
  simp [derive_sd_tags, splitOnC_eq_single h]

theorem c9_witness : derive_sd_tags (toL "Steps: 20") = .ok [] :=
  c9_single_line_no_tags _ (by decide)

/-! ## Claim C10: invalid hex fails atomically -/

/-- C10: when the content hash is not valid hexadecimal, `add_tags`
raises `ValueError` from `bytes.fromhex` before any store access: the
error carries the handle state exactly as it was — no row, cache entry or
counter changed. -/
theorem c10_invalid_hex_atomic (h : HTA) (f : Str) (ts : List Tag)
    (hf : fromhex f = none) : HTA.addTags h f ts = .error (.valueError, h) := by
  unfold HTA.addTags HTA.ensureHash
  rw [hf]

theorem c10_witness :
    HTA.addTags freshHTA (toL "zz") [Tag.plain (toL "x")] = .error (.valueError, freshHTA) :=
  c10_invalid_hex_atomic _ _ _ (by decide)

/-! ## Claim C1: translator error behavior

The claim asserts the translators themselves return an empty tag
collection instead of raising.  The code disagrees: a Dialect B input
whose final line has an entry without a `": "` separator makes
`derive_sd_tags` raise `ValueError` (and a Dialect A mapping without
`"Description"` makes `derive_novel_ai_tags` raise `KeyError`); it is the
enclosing `derive_tags` that catches the exception and turns it into "no
tags", keeping the batch alive. -/

/-- C1 counterexample: on the Dialect B input `"a\nb"` — whose final line
`"b"` has no `": "` separator — the translator raises `ValueError`; it
does not return an empty (or any) tag collection. -/
theorem c1_counterexample : derive_sd_tags (toL "a\nb") = .error .valueError := by decide

/-- C1 (amended): on absent or malformed required fields the dialect
translators propagate an exception; `derive_tags` catches any translator
exception and returns no tags (`None`), so one file's failure never
aborts the batch. -/
theorem c1_translator_errors_caught (info : List (Str × Str)) :
    (getItem info (toL "Software") = some (toL "NovelAI") →
      ∀ e, derive_novel_ai_tags info = .error e → derive_tags info = none) ∧
    (getItem info (toL "Software") ≠ some (toL "NovelAI") →
      ∀ p, getItem info (toL "parameters") = some p → p ≠ [] →
        ∀ e, derive_sd_tags p = .error e → derive_tags info = none) := by
  constructor
  · intro hsw e herr
    unfold derive_tags
    rw [if_pos hsw, herr]
  · intro hsw p hp hne e herr
    unfold derive_tags
    rw [if_neg hsw, hp]
    simp only [herr, if_neg hne]

theorem c1_witness : derive_tags [(toL "parameters", toL "a\nb")] = none :=
  (c1_translator_errors_caught [(toL "parameters", toL "a\nb")]).2 (by decide) (toL "a\nb")
    (by decide) (by decide) .valueError (by decide)

/-! ## Claim C6: cache population at open time

The claim asserts both in-memory caches are populated from persisted
state at open.  The code populates the namespace set but initializes the
tag-text map `_tags` to `{}`, filling it lazily on later lookups. -/

/-- C6 counterexample: opening `c6Store` — which persists the tag row
`(1, "uc:lowres")` — yields a handle whose tag-text map is empty: the
persisted pair is not in the cache. -/
theorem c6_counterexample :
    HTA.load c6Store = .ok c6Loaded ∧
    (1, toL "uc:lowres") ∈ c6Store.tags ∧
    getItem c6Loaded.tags (toL "uc:lowres") = none := by decide

/-- C6 (amended): opening an existing store populates the known-namespace
set with every persisted namespace and loads the identity high-water
marks, but the tag-text-to-tag_id map starts empty (it is filled lazily
by later lookups). -/
theorem c6_namespaces_loaded_tags_lazy (s : Store) (h : HTA)
    (hmark : s.hashType = some 2) (hload : HTA.load s = .ok h) :
    (∀ n ∈ s.namespaces, n ∈ h.namespaces) ∧ h.tags = [] ∧
    h.lastHashId = maxId s.hashes ∧ h.lastTagId = maxId s.tags := by
  unfold HTA.load at hload
  rw [hmark] at hload
  injection hload with hload
  subst hload
  exact ⟨fun n hn => hn, rfl, rfl, rfl⟩

theorem c6_witness :
    (∀ n ∈ c6Store.namespaces, n ∈ c6Loaded.namespaces) ∧ c6Loaded.tags = [] ∧
    c6Loaded.lastHashId = maxId c6Store.hashes ∧ c6Loaded.lastTagId = maxId c6Store.tags :=
  c6_namespaces_loaded_tags_lazy c6Store c6Loaded (by decide) (by decide)

/-! ## Claim C7: the parser consumes everything or fails with an offset

The success index of every parser of the grammar stays within the input;
`parse_strict` ends with an `eof` check, so success means the entire
input was consumed, and failure carries the offending offset by
construction of `parse`.  The claim's second illustrative failure mode is
wrong, however: a dangling colon with no following number is not
rejected — `colon / (number < end)` accepts the colon as literal tag text
exactly when no number-and-terminator follows it. -/

theorem matchedLen_le (s r : Str) : matchedLen s r ≤ r.length := by
  induction s generalizing r with
  | nil => cases r <;> simp [matchedLen]
  | cons c cs ih =>
    cases r with
    | nil => simp [matchedLen]
    | cons d ds =>
      rw [matchedLen]
      split
      · simpa using ih ds
      · exact Nat.zero_le _

theorem bounded_stringP (s : Str) : Bounded (stringP s) := by
  intro t i j v hi hok
  unfold stringP at hok
  split at hok
  · next h =>
    injection hok with h1 _
    have hle := matchedLen_le s (t.drop i)
    rw [List.length_drop, h] at hle
    omega
  · cases hok

theorem bounded_takeWhileP (pred : Char → Bool) : Bounded (takeWhileP pred) := by
  intro t i j v hi hok
  unfold takeWhileP at hok
  split at hok
  · cases hok
  · injection hok with h1 _
    have hle : ((t.drop i).takeWhile pred).length ≤ (t.drop i).length :=
      (List.takeWhile_sublist pred).length_le
    rw [List.length_drop] at hle
    omega

theorem fracPart_le (s₂ : Str) : (fracPart s₂).length ≤ s₂.length := by
  unfold fracPart
  split
  · split
    · simp
    · simpa using (List.takeWhile_sublist isDigit).length_le
  · simp

theorem numLexCore_le (s₁ lex : Str) (h : numLexCore s₁ = some lex) :
    lex.length ≤ s₁.length := by
  unfold numLexCore at h
  split at h
  · cases h
  · injection h with h1
    have hparts : (s₁.takeWhile isDigit).length + (s₁.dropWhile isDigit).length
        = s₁.length := by
      conv_rhs => rw [← List.takeWhile_append_dropWhile isDigit s₁]
      rw [List.length_append]
    have hfrac := fracPart_le (s₁.dropWhile isDigit)
    rw [← h1, List.length_append]
    omega

theorem numLex_le (s lex : Str) (h : numLex s = some lex) : lex.length ≤ s.length := by
  unfold numLex at h
  split at h
  · next r =>
    cases hc : numLexCore r with
    | none => rw [hc] at h; cases h
    | some body =>
      rw [hc] at h
      injection h with h1
      have := numLexCore_le r body hc
      rw [← h1]
      simpa using this
  · exact numLexCore_le s lex h

theorem bounded_regexNumP : Bounded regexNumP := by
  intro t i j v hi hok
  unfold regexNumP at hok
  cases hc : numLex (t.drop i) with
  | none => rw [hc] at hok; cases hok
  | some lex =>
    rw [hc] at hok
    injection hok with h1 _
    have := numLex_le (t.drop i) lex hc
    rw [List.length_drop] at this
    omega

theorem bounded_eofP : Bounded eofP := by
  intro t i j v hi hok
  unfold eofP at hok
  split at hok
  · injection hok with h1 _
    omega
  · cases hok

theorem bounded_pmap {α β : Type} (f : α → β) (p : Parser α) (hp : Bounded p) :
    Bounded (pmap f p) := by
  intro t i j v hi hok
  cases he : p t i with
  | ok j' v' =>
    simp only [pmap, he] at hok
    injection hok with h1 _
    exact h1 ▸ hp t i j' v' hi he
  | err k => simp only [pmap, he] at hok; cases hok

theorem bounded_toUnit {α : Type} (p : Parser α) (hp : Bounded p) :
    Bounded (toUnit p) := bounded_pmap _ p hp

theorem bounded_pcompose {α β : Type} (p : Parser α) (q : Parser β)
    (hp : Bounded p) (hq : Bounded q) : Bounded (pcompose p q) := by
  intro t i j v hi hok
  cases he : p t i with
  | ok j' v' =>
    simp only [pcompose, he] at hok
    exact hq t j' j v (hp t i j' v' hi he) hok
  | err k => simp only [pcompose, he] at hok; cases hok

theorem bounded_pskip {α β : Type} (p : Parser α) (q : Parser β)
    (hp : Bounded p) (hq : Bounded q) : Bounded (pskip p q) := by
  intro t i j v hi hok
  cases he : p t i with
  | ok j' v' =>
    simp only [pskip, he] at hok
    cases he2 : q t j' with
    | ok k w =>
      simp only [he2] at hok
      injection hok with h1 _
      exact h1 ▸ hq t j' k w (hp t i j' v' hi he) he2
    | err k => simp only [he2] at hok; cases hok
  | err k => simp only [pskip, he] at hok; cases hok

theorem bounded_pendsWith {α β : Type} (p : Parser α) (q : Parser β)
    (hp : Bounded p) : Bounded (pendsWith p q) := by
  intro t i j v hi hok
  cases he : p t i with
  | ok j' v' =>
    simp only [pendsWith, he] at hok
    cases he2 : q t j' with
    | ok k w =>
      simp only [he2] at hok
      injection hok with h1 _
      exact h1 ▸ hp t i j' v' hi he
    | err k => simp only [he2] at hok; cases hok
  | err k => simp only [pendsWith, he] at hok; cases hok

theorem bounded_pexcepts {α β : Type} (p : Parser α) (q : Parser β)
    (hp : Bounded p) : Bounded (pexcepts p q) := by
  intro t i j v hi hok
  cases he : p t i with
  | ok j' v' =>
    simp only [pexcepts, he] at hok
    cases he2 : q t j' with
    | ok k w => simp only [he2] at hok; cases hok
    | err k =>
      simp only [he2] at hok
      injection hok with h1 _
      exact h1 ▸ hp t i j' v' hi he
  | err k => simp only [pexcepts, he] at hok; cases hok

theorem bounded_pchoice {α : Type} (p q : Parser α)
    (hp : Bounded p) (hq : Bounded q) : Bounded (pchoice p q) := by
  intro t i j v hi hok
  cases he : p t i with
  | ok j' v' =>
    simp only [pchoice, he] at hok
    injection hok with h1 _
    exact h1 ▸ hp t i j' v' hi he
  | err k =>
    simp only [pchoice, he] at hok
    split at hok
    · exact hq t i j v hi hok
    · cases hok

theorem bounded_pjoint {α β : Type} (p : Parser α) (q : Parser β)
    (hp : Bounded p) (hq : Bounded q) : Bounded (pjoint p q) := by
  intro t i j v hi hok
  cases he : p t i with
  | ok j' v' =>
    simp only [pjoint, he] at hok
    cases he2 : q t j' with
    | ok k w =>
      simp only [he2] at hok
      injection hok with h1 _
      exact h1 ▸ hq t j' k w (hp t i j' v' hi he) he2
    | err k => simp only [he2] at hok; cases hok
  | err k => simp only [pjoint, he] at hok; cases hok

theorem bounded_plookahead {α : Type} (p : Parser α) : Bounded (plookahead p) := by
  intro t i j v hi hok
  cases he : p t i with
  | ok j' v' =>
    simp only [plookahead, he] at hok
    injection hok with h1 _
    omega
  | err k => simp only [plookahead, he] at hok; cases hok

theorem bounded_poptional {α : Type} (p : Parser α) (hp : Bounded p) :
    Bounded (poptional p) := by
  intro t i j v hi hok
  cases he : p t i with
  | ok j' v' =>
    simp only [poptional, he] at hok
    injection hok with h1 _
    exact h1 ▸ hp t i j' v' hi he
  | err k =>
    simp only [poptional, he] at hok
    injection hok with h1 _
    omega

theorem bounded_seqU (p q : Parser Unit) (hp : Bounded p) (hq : Bounded q) :
    Bounded (seqU p q) := by
  intro t i j v hi hok
  cases he : p t i with
  | ok j' v' =>
    simp only [seqU, he] at hok
    exact hq t j' j v (hp t i j' v' hi he) hok
  | err k => simp only [seqU, he] at hok; cases hok

theorem bounded_recognizeP {α : Type} (p : Parser α) (hp : Bounded p) :
    Bounded (recognizeP p) := by
  intro t i j v hi hok
  cases he : p t i with
  | ok j' v' =>
    simp only [recognizeP, he] at hok
    injection hok with h1 _
    exact h1 ▸ hp t i j' v' hi he
  | err k => simp only [recognizeP, he] at hok; cases hok

theorem manyAux_bounded {α : Type} (p : Parser α) (hp : Bounded p) (t : Str) :
    ∀ (fuel i : Nat) (acc : List α) (j : Nat) (vs : List α), i ≤ t.length →
      manyAux p t fuel i acc = .ok j vs → j ≤ t.length := by
  intro fuel
  induction fuel with
  | zero =>
    intro i acc j vs hi hok
    unfold manyAux at hok
    injection hok with h1 _
    omega
  | succ n ih =>
    intro i acc j vs hi hok
    cases he : p t i with
    | err k =>
      simp only [manyAux, he] at hok
      injection hok with h1 _
      omega
    | ok j' v =>
      simp only [manyAux, he] at hok
      split at hok
      · injection hok with h1 _
        omega
      · exact ih j' (v :: acc) j vs (hp t i j' v hi he) hok

theorem bounded_pmany {α : Type} (p : Parser α) (hp : Bounded p) :
    Bounded (pmany p) := by
  intro t i j v hi hok
  exact manyAux_bounded p hp t _ i [] j v hi hok

theorem bounded_pmany1 {α : Type} (p : Parser α) (hp : Bounded p) :
    Bounded (pmany1 p) := by
  intro t i j v hi hok
  cases he : p t i with
  | err k => simp only [pmany1, he] at hok; cases hok
  | ok j' v' =>
    simp only [pmany1, he] at hok
    cases he2 : pmany p t j' with
    | ok k vs =>
      simp only [he2] at hok
      injection hok with h1 _
      exact h1 ▸ bounded_pmany p hp t j' k vs (hp t i j' v' hi he) he2
    | err k => simp only [he2] at hok; cases hok

theorem sepByAux_bounded {α β : Type} (p : Parser α) (sep : Parser β)
    (hp : Bounded p) (hsep : Bounded sep) (t : Str) :
    ∀ (fuel i : Nat) (acc : List α) (j : Nat) (vs : List α), i ≤ t.length →
      sepByAux p sep t fuel i acc = .ok j vs → j ≤ t.length := by
  intro fuel
  induction fuel with
  | zero =>
    intro i acc j vs hi hok
    unfold sepByAux at hok
    injection hok with h1 _
    omega
  | succ n ih =>
    intro i acc j vs hi hok
    cases he : sep t i with
    | err k =>
      simp only [sepByAux, he] at hok
      injection hok with h1 _
      omega
    | ok j' w =>
      simp only [sepByAux, he] at hok
      cases he2 : p t j' with
      | err k =>
        simp only [he2] at hok
        injection hok with h1 _
        omega
      | ok k v =>
        simp only [he2] at hok
        split at hok
        · injection hok with h1 _
          omega
        · exact ih k (v :: acc) j vs (hp t j' k v (hsep t i j' w hi he) he2) hok

theorem bounded_psepBy1 {α β : Type} (p : Parser α) (sep : Parser β)
    (hp : Bounded p) (hsep : Bounded sep) : Bounded (psepBy1 p sep) := by
  intro t i j v hi hok
  cases he : p t i with
  | err k => simp only [psepBy1, he] at hok; cases hok
  | ok j' v' =>
    simp only [psepBy1, he] at hok
    exact sepByAux_bounded p sep hp hsep t _ j' [v'] j v (hp t i j' v' hi he) hok

theorem sepEndByAux_bounded {α β : Type} (p : Parser α) (sep : Parser β)
    (hp : Bounded p) (hsep : Bounded sep) (t : Str) :
    ∀ (fuel i : Nat) (acc : List α) (j : Nat) (vs : List α), i ≤ t.length →
      sepEndByAux p sep t fuel i acc = .ok j vs → j ≤ t.length := by
  intro fuel
  induction fuel with
  | zero =>
    intro i acc j vs hi hok
    unfold sepEndByAux at hok
    injection hok with h1 _
    omega
  | succ n ih =>
    intro i acc j vs hi hok
    cases he : p t i with
    | err k =>
      simp only [sepEndByAux, he] at hok
      injection hok with h1 _
      omega
    | ok j' v =>
      simp only [sepEndByAux, he] at hok
      split at hok
      · injection hok with h1 _
        omega
      · cases he2 : sep t j' with
        | err k =>
          simp only [he2] at hok
          injection hok with h1 _
          exact h1 ▸ hp t i j' v hi he
        | ok k w =>
          simp only [he2] at hok
          exact ih k (v :: acc) j vs (hsep t j' k w (hp t i j' v hi he) he2) hok

theorem bounded_psepEndBy {α β : Type} (p : Parser α) (sep : Parser β)
    (hp : Bounded p) (hsep : Bounded sep) : Bounded (psepEndBy p sep) := by
  intro t i j v hi hok
  exact sepEndByAux_bounded p sep hp hsep t _ i [] j v hi hok

theorem bounded_ignoreP : Bounded ignoreP :=
  bounded_pmany _ (bounded_takeWhileP pyIsSpace)

theorem bounded_lexeme {α : Type} (p : Parser α) (hp : Bounded p) :
    Bounded (lexeme p) := bounded_pskip _ _ hp bounded_ignoreP

theorem bounded_tokenP (c : Char) : Bounded (lexeme (stringP [c])) :=
  bounded_lexeme _ (bounded_stringP [c])

theorem bounded_numberP : Bounded numberP :=
  bounded_pmap _ _ (bounded_lexeme _ bounded_regexNumP)

theorem bounded_wordP : Bounded wordP :=
  bounded_lexeme _ (bounded_takeWhileP isWordChar)

theorem bounded_sepP : Bounded sepP :=
  bounded_lexeme _ (bounded_pmany1 _ (bounded_pchoice _ _ (bounded_tokenP ',') (bounded_tokenP '\n')))

theorem bounded_tagA (endP : Parser Unit) : Bounded (tagA endP) :=
  bounded_recognizeP _ (bounded_pmany1 _ (bounded_pchoice _ _
    (bounded_toUnit _ bounded_wordP)
    (bounded_pexcepts _ _ (bounded_toUnit _ (bounded_tokenP ':')))))

theorem bounded_tagB (endP : Parser Unit) : Bounded (tagB endP) :=
  bounded_recognizeP _ (bounded_seqU _ _
    (bounded_toUnit _ (bounded_tagA endP))
    (bounded_toUnit _ (bounded_pmany _ (bounded_pchoice _ _
      (bounded_toUnit _ (bounded_tagA endP))
      (bounded_seqU _ _ (bounded_toUnit _ (bounded_tokenP '('))
        (bounded_seqU _ _ (bounded_toUnit _ (bounded_tagA endP))
          (bounded_pchoice _ _ (bounded_toUnit _ (bounded_tokenP ')'))
            (bounded_toUnit _ (bounded_plookahead _)))))))))

theorem bounded_tagsP (endP : Parser Unit) : Bounded (tagsP endP) :=
  bounded_psepBy1 _ _
    (bounded_pjoint _ _
      (bounded_psepEndBy _ _ (bounded_tagB endP) bounded_sepP)
      (bounded_poptional _ (bounded_pcompose _ _ (bounded_tokenP ':') bounded_numberP)))
    (bounded_tokenP '|')

theorem bounded_weightedTags : Bounded weightedTags :=
  bounded_pchoice _ _
    (bounded_pskip _ _
      (bounded_pcompose _ _ (bounded_pmany1 _ (bounded_tokenP '(')) (bounded_tagsP _))
      (bounded_pmany1 _ (bounded_tokenP ')')))
    (bounded_pchoice _ _
      (bounded_pskip _ _
        (bounded_pcompose _ _ (bounded_pmany1 _ (bounded_tokenP '[')) (bounded_tagsP _))
        (bounded_pmany1 _ (bounded_tokenP ']')))
      (bounded_pskip _ _
        (bounded_pcompose _ _ (bounded_pmany1 _ (bounded_tokenP '{')) (bounded_tagsP _))
        (bounded_pmany1 _ (bounded_tokenP '}'))))

theorem bounded_promptP : Bounded promptP :=
  bounded_pmap _ _ (bounded_pmany _ (bounded_pskip _ _
    (bounded_pchoice _ _ bounded_weightedTags (bounded_tagsP eofP))
    (bounded_poptional _ bounded_sepP)))

theorem c7_counterexample : parse (toL "foo:") = .ok [([toL "foo:"], none)] := by decide

/-- C7 (amended): `parse` either consumes the entire input and returns
the parsed groups — whenever the underlying `parse_strict` run succeeds,
its final index is exactly the input length, so nothing is silently
truncated — or fails, and the failure offset is carried into the result
(`parse` maps `err j` to `error j` by construction).  An unmatched
closing delimiter is such an error (offset 3 on `"foo}"`); a dangling
colon with no following number, however, is absorbed into the preceding
tag's literal text rather than rejected. -/
theorem c7_consume_all_or_fail :
    (∀ (text : Str) (j : Nat) (v : List TagGroup),
        topRun text = .ok j v → j = text.length) ∧
    parse (toL "foo\x7d") = .error 3 := by
  constructor
  · intro text j v hok
    cases he : pcompose ignoreP promptP text 0 with
    | err k => simp only [topRun, pendsWith, he] at hok; cases hok
    | ok j' v' =>
      simp only [topRun, pendsWith, he] at hok
      cases he2 : eofP text j' with
      | err k => simp only [he2] at hok; cases hok
      | ok k w =>
        simp only [he2] at hok
        injection hok with h1 _
        have hb : j' ≤ text.length :=
          bounded_pcompose _ _ bounded_ignoreP bounded_promptP text 0 j' v'
            (Nat.zero_le _) he
        unfold eofP at he2
        split at he2
        · next hlen => injection he2 with h2 _; omega
        · cases he2
  · decide

theorem c7_witness : (2 : Nat) = (toL "ab").length :=
  c7_consume_all_or_fail.1 (toL "ab") 2 [([toL "ab"], none)] (by decide)

/-! ## Claim C8: the pragmatic extractor is a fixed point on its output

Every tag `parse_tags` emits is non-empty, separator-free,
whitespace-normalized, lowercase and stripped (`GoodTag`); and on any
`GoodTag` string every stage of `parse_tags` is the identity, so the
string comes back as the single tag. -/

theorem lowerChar_pyIsSpace (c : Char) : pyIsSpace (lowerChar c) = pyIsSpace c := by
  unfold lowerChar
  split <;> rfl

theorem lowerChar_space (c : Char) : (lowerChar c = ' ') ↔ (c = ' ') := by
  unfold lowerChar
  split <;> first | exact Iff.rfl | decide

theorem lowerChar_space_b (c : Char) :
    (decide (lowerChar c = ' ')) = (decide (c = ' ')) :=
  decide_eq_decide.mpr (lowerChar_space c)

theorem lowerChar_mem_lower (c : Char) :
    lowerChar c = c ∨ lowerChar c ∈
      ['a', 'b', 'c', 'd', 'e', 'f', 'g', 'h', 'i', 'j', 'k', 'l', 'm',
       'n', 'o', 'p', 'q', 'r', 's', 't', 'u', 'v', 'w', 'x', 'y', 'z'] := by
  unfold lowerChar
  split <;> first | exact Or.inl rfl | exact Or.inr (by decide)

theorem lowerChar_idem (c : Char) : lowerChar (lowerChar c) = lowerChar c := by
  rcases lowerChar_mem_lower c with h | h
  · rw [h, h]
  · have hall : ∀ x ∈ (['a', 'b', 'c', 'd', 'e', 'f', 'g', 'h', 'i', 'j', 'k',
        'l', 'm', 'n', 'o', 'p', 'q', 'r', 's', 't', 'u', 'v', 'w', 'x', 'y',
        'z'] : List Char), lowerChar x = x := by decide
    exact hall _ h

theorem lowerChar_punct (c x : Char) (hx : x ∈ stripSet ∨ x = '|' ∨ x = ':') :
    (lowerChar c = x ↔ c = x) := by
  rcases lowerChar_mem_lower c with h | h
  · rw [h]
  · constructor
    · intro he
      have hmem : x ∈ ['a', 'b', 'c', 'd', 'e', 'f', 'g', 'h', 'i', 'j', 'k',
          'l', 'm', 'n', 'o', 'p', 'q', 'r', 's', 't', 'u', 'v', 'w', 'x', 'y',
          'z'] := he ▸ h
      have hd : ∀ y ∈ (['a', 'b', 'c', 'd', 'e', 'f', 'g', 'h', 'i', 'j', 'k',
          'l', 'm', 'n', 'o', 'p', 'q', 'r', 's', 't', 'u', 'v', 'w', 'x', 'y',
          'z'] : List Char), ¬(y ∈ stripSet ∨ y = '|' ∨ y = ':') := by decide
      exact absurd hx (hd x hmem)
    · intro he
      subst he
      have hfix : ∀ y ∈ stripSet ++ ['|', ':'], lowerChar y = y := by decide
      apply hfix
      rcases hx with h1 | h1 | h1
      · exact List.mem_append_left _ h1
      · rw [h1]; decide
      · rw [h1]; decide

theorem lowerStr_idem (l : Str) : lowerStr (lowerStr l) = lowerStr l := by
  unfold lowerStr
  rw [List.map_map]
  exact List.map_congr_left (fun c _ => lowerChar_idem c)

theorem normWs_lowerStr (l : Str) : normWs (lowerStr l) = normWs l := by
  induction l with
  | nil => rfl
  | cons c rest ih =>
    cases rest with
    | nil =>
      show normWs [lowerChar c] = normWs [c]
      rw [normWs, normWs, lowerChar_pyIsSpace, lowerChar_space_b]
    | cons d r =>
      have hc1 : lowerStr (c :: d :: r) = lowerChar c :: lowerChar d :: lowerStr r := rfl
      have hc2 : lowerStr (d :: r) = lowerChar d :: lowerStr r := rfl
      rw [hc1, normWs, normWs, ← hc2, ih, lowerChar_pyIsSpace, lowerChar_space_b,
        lowerChar_space_b]

theorem normWs_tail {c : Char} {rest : Str} (h : normWs (c :: rest) = true) :
    normWs rest = true := by
  cases rest with
  | nil => rfl
  | cons d r =>
    rw [normWs] at h
    simp only [Bool.and_eq_true] at h
    exact h.2

theorem normWs_class {c : Char} {rest : Str} (h : normWs (c :: rest) = true)
    (hs : pyIsSpace c = true) : c = ' ' := by
  cases rest with
  | nil =>
    rw [normWs, hs] at h
    simpa using h
  | cons d r =>
    rw [normWs, hs] at h
    simp only [Bool.and_eq_true] at h
    have h1 := h.1.1
    simpa using h1

theorem normWs_pair {c d : Char} {rest : Str}
    (h : normWs (c :: d :: rest) = true) : ¬(c = ' ' ∧ d = ' ') := by
  intro ⟨hc, hd⟩
  subst hc; subst hd
  rw [normWs] at h
  simp at h

theorem wsDrop_head (s : Str) (d : Char) (tail : Str)
    (h : wsDrop s = d :: tail) : pyIsSpace d = false := by
  induction s generalizing d tail with
  | nil => cases h
  | cons c rest ih =>
    rw [wsDrop] at h
    by_cases hc : pyIsSpace c
    · rw [if_pos hc] at h
      exact ih d tail h
    · rw [if_neg hc] at h
      injection h with h1 _
      subst h1
      exact Bool.eq_false_iff.mpr hc

theorem wsPair (s : Str) : normWs (wsSub s) = true ∧ normWs (wsDrop s) = true := by
  induction s with
  | nil => exact ⟨rfl, rfl⟩
  | cons c rest ih =>
    constructor
    · rw [wsSub]
      by_cases hc : pyIsSpace c
      · rw [if_pos hc]
        cases hd : wsDrop rest with
        | nil => decide
        | cons d tail =>
          have hdns := wsDrop_head rest d tail hd
          have h2 := ih.2
          rw [hd] at h2
          have hdn : decide (d = ' ') = false :=
            decide_eq_false (fun he => by rw [he] at hdns; cases hdns)
          rw [normWs, h2, hdn]
          simp
      · rw [if_neg hc]
        have hcb : pyIsSpace c = false := Bool.eq_false_iff.mpr hc
        cases hs : wsSub rest with
        | nil =>
          rw [normWs, hcb]
          simp
        | cons d tail =>
          have h1 := ih.1
          rw [hs] at h1
          have hcn : decide (c = ' ') = false :=
            decide_eq_false (fun he => by rw [he] at hcb; cases hcb)
          rw [normWs, h1, hcb, hcn]
          simp
    · rw [wsDrop]
      by_cases hc : pyIsSpace c
      · rw [if_pos hc]
        exact ih.2
      · rw [if_neg hc]
        have hcb : pyIsSpace c = false := Bool.eq_false_iff.mpr hc
        cases hs : wsSub rest with
        | nil =>
          rw [normWs, hcb]
          simp
        | cons d tail =>
          have h1 := ih.1
          rw [hs] at h1
          have hcn : decide (c = ' ') = false :=
            decide_eq_false (fun he => by rw [he] at hcb; cases hcb)
          rw [normWs, h1, hcb, hcn]
          simp

theorem wsFix (t : Str) (h : normWs t = true) :
    wsSub t = t ∧ (∀ d rest', t = d :: rest' → pyIsSpace d = false → wsDrop t = t) := by
  induction t with
  | nil => exact ⟨rfl, fun d rest' hd => by cases hd⟩
  | cons c rest ih =>
    have hrest := normWs_tail h
    obtain ⟨ih1, ih2⟩ := ih hrest
    constructor
    · rw [wsSub]
      by_cases hc : pyIsSpace c
      · have hsp := normWs_class h hc
        subst hsp
        rw [if_pos hc]
        cases rest with
        | nil => rfl
        | cons d rest' =>
          have hpair := normWs_pair h
          have hd : pyIsSpace d = false := by
            by_cases hdw : pyIsSpace d = true
            · have := normWs_class hrest hdw
              exact absurd ⟨rfl, this⟩ hpair
            · exact Bool.eq_false_iff.mpr hdw
          rw [ih2 d rest' rfl hd]
      · rw [if_neg hc, ih1]
    · intro d rest' hd hdns
      injection hd with h1 h2
      subst h1; subst h2
      rw [wsDrop, if_neg (by rw [hdns]; exact Bool.false_ne_true), ih1]

theorem normWs_headB {c : Char} {rest : Str} (h : normWs (c :: rest) = true) :
    (!pyIsSpace c || decide (c = ' ')) = true := by
  cases rest with
  | nil => rw [normWs] at h; exact h
  | cons d r =>
    rw [normWs] at h
    simp only [Bool.and_eq_true] at h
    exact h.1.1

theorem normWs_pairB {c d : Char} {rest : Str} (h : normWs (c :: d :: rest) = true) :
    (!(decide (c = ' ') && decide (d = ' '))) = true := by
  rw [normWs] at h
  simp only [Bool.and_eq_true] at h
  exact h.1.2

theorem normWs_cons1 {c : Char} (h : (!pyIsSpace c || decide (c = ' ')) = true) :
    normWs [c] = true := by
  rw [normWs]; exact h

theorem normWs_cons2 {c d : Char} {rest : Str}
    (h1 : (!pyIsSpace c || decide (c = ' ')) = true)
    (h2 : (!(decide (c = ' ') && decide (d = ' '))) = true)
    (h3 : normWs (d :: rest) = true) : normWs (c :: d :: rest) = true := by
  rw [normWs]
  simp only [Bool.and_eq_true]
  exact ⟨⟨h1, h2⟩, h3⟩

theorem splitOnC_ne_nil (sep : Char) (l : Str) : splitOnC sep l ≠ [] := by
  cases l with
  | nil => simp [splitOnC]
  | cons c rest =>
    rw [splitOnC]
    cases hs : splitOnC sep rest with
    | nil => simp
    | cons g gs => by_cases hc : c = sep <;> simp [hc]

theorem splitOnC_head (sep : Char) (l g : Str) (gs : List Str)
    (h : splitOnC sep l = g :: gs) : g = [] ∨ g.head? = l.head? := by
  cases l with
  | nil =>
    rw [splitOnC] at h
    injection h with h1 _
    exact Or.inl h1.symm
  | cons c rest =>
    rw [splitOnC] at h
    cases hs : splitOnC sep rest with
    | nil => exact absurd hs (splitOnC_ne_nil sep rest)
    | cons g' gs' =>
      simp only [hs] at h
      by_cases hc : c = sep
      · rw [if_pos hc] at h
        injection h with h1 _
        exact Or.inl h1.symm
      · rw [if_neg hc] at h
        injection h with h1 _
        exact Or.inr (by rw [← h1]; simp)

theorem mem_splitOnC (sep : Char) (l p : Str) (h : p ∈ splitOnC sep l) :
    sep ∉ p ∧ ∀ c ∈ p, c ∈ l := by
  induction l generalizing p with
  | nil =>
    rw [splitOnC] at h
    simp only [List.mem_singleton] at h
    subst h
    exact ⟨by simp, by simp⟩
  | cons c rest ih =>
    rw [splitOnC] at h
    cases hs : splitOnC sep rest with
    | nil => exact absurd hs (splitOnC_ne_nil sep rest)
    | cons g gs =>
      simp only [hs] at h
      by_cases hc : c = sep
      · rw [if_pos hc] at h
        rcases List.mem_cons.mp h with h1 | h1
        · subst h1
          exact ⟨by simp, by simp⟩
        · obtain ⟨hsep, hsub⟩ := ih (p := p) (by rw [hs]; exact h1)
          exact ⟨hsep, fun x hx => List.mem_cons_of_mem _ (hsub x hx)⟩
      · rw [if_neg hc] at h
        rcases List.mem_cons.mp h with h1 | h1
        · subst h1
          obtain ⟨hsep, hsub⟩ :=
            ih (p := g) (by rw [hs]; exact List.mem_cons_self _ _)
          constructor
          · intro hmem
            rcases List.mem_cons.mp hmem with h2 | h2
            · exact hc h2.symm
            · exact hsep h2
          · intro x hx
            rcases List.mem_cons.mp hx with h2 | h2
            · subst h2; exact List.mem_cons_self _ _
            · exact List.mem_cons_of_mem _ (hsub x h2)
        · obtain ⟨hsep, hsub⟩ := ih (p := p) (by rw [hs]; exact List.mem_cons_of_mem _ h1)
          exact ⟨hsep, fun x hx => List.mem_cons_of_mem _ (hsub x hx)⟩

theorem splitOnC_normWs (sep : Char) (l p : Str) (hn : normWs l = true)
    (h : p ∈ splitOnC sep l) : normWs p = true := by
  induction l generalizing p with
  | nil =>
    rw [splitOnC] at h
    simp only [List.mem_singleton] at h
    subst h
    rfl
  | cons c rest ih =>
    have hrest := normWs_tail hn
    rw [splitOnC] at h
    cases hs : splitOnC sep rest with
    | nil => exact absurd hs (splitOnC_ne_nil sep rest)
    | cons g gs =>
      simp only [hs] at h
      by_cases hc : c = sep
      · rw [if_pos hc] at h
        rcases List.mem_cons.mp h with h1 | h1
        · subst h1; rfl
        · exact ih _ hrest (by rw [hs]; exact h1)
      · rw [if_neg hc] at h
        rcases List.mem_cons.mp h with h1 | h1
        · subst h1
          have hng : normWs g = true :=
            ih _ hrest (by rw [hs]; exact List.mem_cons_self _ _)
          cases g with
          | nil => exact normWs_cons1 (normWs_headB hn)
          | cons d g' =>
            rcases splitOnC_head sep rest _ _ hs with h2 | h2
            · cases h2
            · cases rest with
              | nil => cases h2
              | cons e rest' =>
                have h3 : d = e := by
                  simp only [List.head?_cons] at h2
                  injection h2
                subst h3
                exact normWs_cons2 (normWs_headB hn) (normWs_pairB hn) hng
        · exact ih _ hrest (by rw [hs]; exact List.mem_cons_of_mem _ h1)

theorem takeUntilC_app (sep : Char) (l : Str) :
    ∃ rest, takeUntilC sep l ++ rest = l := by
  induction l with
  | nil => exact ⟨[], rfl⟩
  | cons c r ih =>
    rw [takeUntilC]
    by_cases hc : c = sep
    · rw [if_pos hc]
      exact ⟨c :: r, rfl⟩
    · rw [if_neg hc]
      obtain ⟨rest, hrest⟩ := ih
      exact ⟨rest, by rw [List.cons_append, hrest]⟩

theorem takeUntilC_not_mem (sep : Char) (l : Str) : sep ∉ takeUntilC sep l := by
  induction l with
  | nil => simp [takeUntilC]
  | cons c r ih =>
    rw [takeUntilC]
    by_cases hc : c = sep
    · rw [if_pos hc]; simp
    · rw [if_neg hc]
      intro hmem
      rcases List.mem_cons.mp hmem with h1 | h1
      · exact hc h1.symm
      · exact ih h1

theorem takeUntilC_no_sep (sep : Char) (l : Str) (h : sep ∉ l) :
    takeUntilC sep l = l := by
  induction l with
  | nil => rfl
  | cons c r ih =>
    have hc : ¬c = sep := fun hh => h (by rw [hh]; exact List.mem_cons_self _ _)
    rw [takeUntilC, if_neg hc, ih (fun hh => h (List.mem_cons_of_mem _ hh))]

theorem normWs_append_right (a b : Str) (h : normWs (a ++ b) = true) :
    normWs b = true := by
  induction a with
  | nil => exact h
  | cons c a' ih => exact ih (normWs_tail h)

theorem normWs_append_left (a b : Str) (h : normWs (a ++ b) = true) :
    normWs a = true := by
  induction a with
  | nil => rfl
  | cons c a' ih =>
    cases a' with
    | nil => exact normWs_cons1 (normWs_headB h)
    | cons d a'' =>
      exact normWs_cons2 (normWs_headB h) (normWs_pairB h) (ih (normWs_tail h))

theorem stripL_suffix (set : List Char) (l : Str) :
    ∃ pre, pre ++ stripL set l = l := by
  induction l with
  | nil => exact ⟨[], rfl⟩
  | cons c rest ih =>
    rw [stripL]
    by_cases hc : c ∈ set
    · rw [if_pos hc]
      obtain ⟨pre, hpre⟩ := ih
      exact ⟨c :: pre, by rw [List.cons_append, hpre]⟩
    · rw [if_neg hc]
      exact ⟨[], rfl⟩

theorem stripL_head (set : List Char) (l : Str) (c : Char) (rest : Str)
    (h : stripL set l = c :: rest) : c ∉ set := by
  induction l generalizing c rest with
  | nil => cases h
  | cons e l' ih =>
    rw [stripL] at h
    by_cases he : e ∈ set
    · rw [if_pos he] at h
      exact ih c rest h
    · rw [if_neg he] at h
      injection h with h1 _
      subst h1
      exact he

theorem stripL_no_head (set : List Char) (l : Str)
    (h : ∀ c, l.head? = some c → c ∉ set) : stripL set l = l := by
  cases l with
  | nil => rfl
  | cons c rest =>
    rw [stripL, if_neg (h c rfl)]

theorem reverse_getLast? (l : Str) : l.reverse.getLast? = l.head? := by
  cases l with
  | nil => rfl
  | cons c rest =>
    rw [List.reverse_cons, List.getLast?_concat]
    rfl

theorem reverse_head? (l : Str) : l.reverse.head? = l.getLast? := by
  conv_rhs => rw [← List.reverse_reverse l]
  rw [reverse_getLast?]

theorem map_getLast? (f : Char → Char) (l : Str) :
    (l.map f).getLast? = l.getLast?.map f := by
  induction l with
  | nil => rfl
  | cons c rest ih =>
    cases rest with
    | nil => rfl
    | cons d r =>
      rw [List.map_cons, List.map_cons, List.getLast?_cons_cons, ← List.map_cons, ih,
        List.getLast?_cons_cons]

theorem stripBoth_eq (set : List Char) (s : Str) :
    stripBoth set s = (stripL set (stripL set s).reverse).reverse := rfl

theorem stripBoth_parts (set : List Char) (s : Str) :
    ∃ pre post, pre ++ stripBoth set s ++ post = s := by
  obtain ⟨a, ha⟩ := stripL_suffix set s
  obtain ⟨b, hb⟩ := stripL_suffix set (stripL set s).reverse
  refine ⟨a, b.reverse, ?_⟩
  rw [stripBoth_eq]
  have hu : stripL set s
      = (stripL set (stripL set s).reverse).reverse ++ b.reverse := by
    have := congrArg List.reverse hb
    rw [List.reverse_append, List.reverse_reverse] at this
    exact this.symm
  rw [List.append_assoc, ← hu, ha]

theorem stripBoth_head (set : List Char) (s : Str) (c : Char) (rest : Str)
    (h : stripBoth set s = c :: rest) : c ∉ set := by
  obtain ⟨b, hb⟩ := stripL_suffix set (stripL set s).reverse
  rw [stripBoth_eq] at h
  have hu : stripL set s = c :: (rest ++ b.reverse) := by
    have h2 := congrArg List.reverse hb
    rw [List.reverse_append, List.reverse_reverse] at h2
    rw [h, List.cons_append] at h2
    exact h2.symm
  exact stripL_head set s c _ hu

theorem stripBoth_getLast (set : List Char) (s : Str) (c : Char)
    (h : (stripBoth set s).getLast? = some c) : c ∉ set := by
  rw [stripBoth_eq, reverse_getLast?] at h
  cases hs : stripL set (stripL set s).reverse with
  | nil => rw [hs] at h; cases h
  | cons d tail =>
    rw [hs] at h
    injection h with h1
    exact h1 ▸ stripL_head set _ d tail hs

/-- Every tag the pragmatic extractor yields satisfies the `GoodTag`
shape invariant. -/
theorem mem_parse_tags_good (s t : Str) (h : t ∈ parse_tags s) : GoodTag t := by
  unfold parse_tags at h
  rw [List.mem_flatMap] at h
  obtain ⟨mixing, hmix, h⟩ := h
  rw [List.mem_filterMap] at h
  obtain ⟨tag, htag, hres⟩ := h
  by_cases hcond : lowerStr (stripBoth stripSet (takeUntilC ':' tag)) = []
  · rw [if_pos hcond] at hres; cases hres
  · rw [if_neg hcond] at hres
    injection hres with h1
    subst h1
    have hwsn : normWs (wsSub s) = true := (wsPair s).1
    obtain ⟨hmix_nosep, _⟩ := mem_splitOnC '|' (wsSub s) mixing hmix
    have hmix_norm := splitOnC_normWs '|' _ mixing hwsn hmix
    obtain ⟨htag_nosep, htag_sub⟩ := mem_splitOnC ',' mixing tag htag
    have htag_norm := splitOnC_normWs ',' mixing tag hmix_norm htag
    obtain ⟨urest, hu⟩ := takeUntilC_app ':' tag
    have hu_sub : ∀ c ∈ takeUntilC ':' tag, c ∈ tag := fun c hc => by
      rw [← hu]; exact List.mem_append_left _ hc
    have hu_norm : normWs (takeUntilC ':' tag) = true :=
      normWs_append_left _ _ (by rw [hu]; exact htag_norm)
    obtain ⟨pre, post, hw⟩ := stripBoth_parts stripSet (takeUntilC ':' tag)
    have hw_sub : ∀ c ∈ stripBoth stripSet (takeUntilC ':' tag),
        c ∈ takeUntilC ':' tag := fun c hc => by
      rw [← hw]
      exact List.mem_append_left _ (List.mem_append_right _ hc)
    have hw_norm : normWs (stripBoth stripSet (takeUntilC ':' tag)) = true := by
      have h1 : normWs ((pre ++ stripBoth stripSet (takeUntilC ':' tag)) ++ post)
          = true := by rw [hw]; exact hu_norm
      exact normWs_append_right pre _ (normWs_append_left _ post h1)
    refine ⟨hcond, ?_, ?_, lowerStr_idem _, ?_, ?_⟩
    · intro c hc
      obtain ⟨y, hy, hcy⟩ := List.mem_map.mp hc
      refine ⟨?_, ?_, ?_⟩
      · intro he
        subst he
        have hyp : y = '|' := (lowerChar_punct y '|' (Or.inr (Or.inl rfl))).mp hcy
        subst hyp
        exact hmix_nosep (htag_sub _ (hu_sub _ (hw_sub _ hy)))
      · intro he
        subst he
        have hyp : y = ',' := (lowerChar_punct y ',' (Or.inl (by decide))).mp hcy
        subst hyp
        exact htag_nosep (hu_sub _ (hw_sub _ hy))
      · intro he
        subst he
        have hyp : y = ':' := (lowerChar_punct y ':' (Or.inr (Or.inr rfl))).mp hcy
        subst hyp
        exact takeUntilC_not_mem ':' tag (hw_sub _ hy)
    · rw [normWs_lowerStr]
      exact hw_norm
    · intro c hc
      cases hwc : stripBoth stripSet (takeUntilC ':' tag) with
      | nil =>
        rw [hwc] at hc
        simp [lowerStr] at hc
      | cons y w' =>
        rw [hwc] at hc
        have hcy : lowerChar y = c := by simpa [lowerStr] using hc
        have hy_not : y ∉ stripSet := stripBoth_head stripSet (takeUntilC ':' tag) y w' hwc
        intro hcs
        have hyc : y = c := (lowerChar_punct y c (Or.inl hcs)).mp hcy
        exact hy_not (by rw [hyc]; exact hcs)
    · intro c hc
      rw [show lowerStr (stripBoth stripSet (takeUntilC ':' tag))
          = (stripBoth stripSet (takeUntilC ':' tag)).map lowerChar from rfl,
        map_getLast?] at hc
      cases hwl : (stripBoth stripSet (takeUntilC ':' tag)).getLast? with
      | none => rw [hwl] at hc; cases hc
      | some y =>
        rw [hwl] at hc
        have hcy : lowerChar y = c := by simpa using hc
        have hy_not : y ∉ stripSet :=
          stripBoth_getLast stripSet (takeUntilC ':' tag) y hwl
        intro hcs
        have hyc : y = c := (lowerChar_punct y c (Or.inl hcs)).mp hcy
        exact hy_not (by rw [hyc]; exact hcs)

/-- On a `GoodTag` string every stage of the extractor is the identity,
so the extractor yields it back as the unique tag. -/
theorem good_fixpoint (t : Str) (hg : GoodTag t) : parse_tags t = [t] := by
  obtain ⟨hne, hsep, hnorm, hlow, hhead, hlast⟩ := hg
  have h1 : wsSub t = t := (wsFix t hnorm).1
  have h2 : splitOnC '|' t = [t] :=
    splitOnC_eq_single (fun hmem => (hsep '|' hmem).1 rfl)
  have h3 : splitOnC ',' t = [t] :=
    splitOnC_eq_single (fun hmem => (hsep ',' hmem).2.1 rfl)
  have h4 : takeUntilC ':' t = t :=
    takeUntilC_no_sep ':' t (fun hmem => (hsep ':' hmem).2.2 rfl)
  have h5l : stripL stripSet t = t := stripL_no_head _ _ hhead
  have h5r : stripL stripSet t.reverse = t.reverse := by
    apply stripL_no_head
    intro c hc
    rw [reverse_head?] at hc
    exact hlast c hc
  have h5 : stripBoth stripSet t = t := by
    rw [stripBoth_eq, h5l, h5r, List.reverse_reverse]
  unfold parse_tags
  rw [h1, h2]
  simp only [List.flatMap_cons, List.flatMap_nil, List.append_nil, h3,
    List.filterMap_cons, List.filterMap_nil, h4, h5, hlow]
  rw [if_neg hne]

/-- C8: the pragmatic extractor is a fixed point on its own output: every
tag it yields, re-extracted, comes back as exactly that single tag. -/
theorem c8_extractor_fixpoint (s t : Str) (h : t ∈ parse_tags s) :
    parse_tags t = [t] :=
  good_fixpoint t (mem_parse_tags_good s t h)

theorem c8_witness : parse_tags (toL "a b") = [toL "a b"] :=
  c8_extractor_fixpoint (toL "A  B, ") (toL "a b") (by decide)

/-! ## Claims C4 and C5: archive identity invariants and idempotence

`WF` (§3 of the design document) is preserved by `add_tags`; existing
rows are never moved or reused, new identities are assigned strictly
above the in-memory high-water mark, and a second identical `add_tags`
call leaves the persisted store untouched. -/

theorem SubStart.refl {α : Type} (l : List α) : SubStart l l := ⟨[], List.append_nil l⟩

theorem SubStart.trans {α : Type} {a b c : List α}
    (h1 : SubStart a b) (h2 : SubStart b c) : SubStart a c := by
  obtain ⟨x, hx⟩ := h1
  obtain ⟨y, hy⟩ := h2
  exact ⟨x ++ y, by rw [← List.append_assoc, hx, hy]⟩

theorem SubStart.append {α : Type} (l x : List α) : SubStart l (l ++ x) := ⟨x, rfl⟩

theorem SubStart.mem {α : Type} {a b : List α} (h : SubStart a b) {r : α}
    (hr : r ∈ a) : r ∈ b := by
  obtain ⟨x, hx⟩ := h
  rw [← hx]
  exact List.mem_append_left _ hr

theorem findIdBySnd_none {β : Type} [DecidableEq β] (l : List (Nat × β)) (key : β)
    (h : findIdBySnd l key = none) : ∀ r ∈ l, r.2 ≠ key := by
  induction l with
  | nil => intro r hr; cases hr
  | cons e rest ih =>
    obtain ⟨i, b⟩ := e
    rw [findIdBySnd] at h
    by_cases hb : b = key
    · rw [if_pos hb] at h; cases h
    · rw [if_neg hb] at h
      intro r hr
      rcases List.mem_cons.mp hr with h1 | h1
      · subst h1; exact hb
      · exact ih h r h1

theorem findIdBySnd_some_mem {β : Type} [DecidableEq β] (l : List (Nat × β))
    (key : β) (i : Nat) (h : findIdBySnd l key = some i) : (i, key) ∈ l := by
  induction l with
  | nil => cases h
  | cons e rest ih =>
    obtain ⟨j, b⟩ := e
    rw [findIdBySnd] at h
    by_cases hb : b = key
    · rw [if_pos hb] at h
      injection h with h1
      subst h1; subst hb
      exact List.mem_cons_self _ _
    · rw [if_neg hb] at h
      exact List.mem_cons_of_mem _ (ih h)

theorem findIdBySnd_mem_isSome {β : Type} [DecidableEq β] {l : List (Nat × β)}
    {key : β} {i : Nat} (h : (i, key) ∈ l) :
    ∃ j, findIdBySnd l key = some j := by
  cases hf : findIdBySnd l key with
  | some j => exact ⟨j, rfl⟩
  | none => exact absurd rfl (findIdBySnd_none l key hf (i, key) h)

theorem snd_unique {β : Type} {l : List (Nat × β)}
    (hpw : l.Pairwise (fun a b => a.1 ≠ b.1 ∧ a.2 ≠ b.2)) {i j : Nat} {x : β}
    (hi : (i, x) ∈ l) (hj : (j, x) ∈ l) : i = j := by
  induction l with
  | nil => cases hi
  | cons e rest ih =>
    have hpw' := List.pairwise_cons.mp hpw
    rcases List.mem_cons.mp hi with h1 | h1 <;> rcases List.mem_cons.mp hj with h2 | h2
    · exact congrArg Prod.fst (h1.trans h2.symm)
    · exact absurd (show e.2 = (j, x).2 from by rw [← h1]) (hpw'.1 _ h2).2
    · exact absurd (show e.2 = (i, x).2 from by rw [← h2]) (hpw'.1 _ h1).2
    · exact ih hpw'.2 h1 h2

theorem getItem_mem {α : Type} (l : List (Str × α)) (k : Str) (v : α)
    (h : getItem l k = some v) : (k, v) ∈ l := by
  induction l with
  | nil => cases h
  | cons e rest ih =>
    obtain ⟨k', v'⟩ := e
    rw [getItem] at h
    by_cases hk : k' = k
    · rw [if_pos hk] at h
      injection h with h1
      subst h1; subst hk
      exact List.mem_cons_self _ _
    · rw [if_neg hk] at h
      exact List.mem_cons_of_mem _ (ih h)

theorem insertMapping_base {ms : List (Nat × Nat)} {p q : Nat × Nat}
    (h : q ∈ ms) : q ∈ insertMapping ms p := by
  unfold insertMapping
  split
  · exact h
  · exact List.mem_append_left _ h

theorem foldl_insertMapping_base (ps : List (Nat × Nat)) :
    ∀ (ms : List (Nat × Nat)) (q : Nat × Nat), q ∈ ms →
      q ∈ ps.foldl insertMapping ms := by
  induction ps with
  | nil => intro ms q h; exact h
  | cons p ps' ih =>
    intro ms q h
    exact ih _ q (insertMapping_base h)

theorem foldl_insertMapping_mem (ps : List (Nat × Nat)) :
    ∀ (ms : List (Nat × Nat)) (q : Nat × Nat), q ∈ ps →
      q ∈ ps.foldl insertMapping ms := by
  induction ps with
  | nil => intro ms q h; cases h
  | cons p ps' ih =>
    intro ms q h
    rcases List.mem_cons.mp h with h1 | h1
    · subst h1
      rw [List.foldl_cons]
      apply foldl_insertMapping_base
      unfold insertMapping
      split
      · assumption
      · exact List.mem_append_right _ (List.mem_cons_self _ _)
    · exact ih _ q h1

theorem foldl_insertMapping_absorb (ps : List (Nat × Nat)) :
    ∀ (ms : List (Nat × Nat)), (∀ q ∈ ps, q ∈ ms) →
      ps.foldl insertMapping ms = ms := by
  induction ps with
  | nil => intro ms _; rfl
  | cons p ps' ih =>
    intro ms h
    have hp : p ∈ ms := h p (List.mem_cons_self _ _)
    rw [List.foldl_cons, show insertMapping ms p = ms from by
      unfold insertMapping; rw [if_pos hp]]
    exact ih ms (fun q hq => h q (List.mem_cons_of_mem _ hq))

/-- What `_ensure_hash` does to the handle: existing rows, all other
tables and the caches are untouched; the resolved id maps to the decoded
bytes; a fresh id (if any) is `lastHashId + 1`, above every old id. -/
theorem ensureHash_spec (h : HTA) (f : Str) (id : Nat) (h' : HTA)
    (hwf : WF h) (hok : h.ensureHash f = .ok (id, h')) :
    WF h' ∧
    SubStart h.store.hashes h'.store.hashes ∧
    h'.store.tags = h.store.tags ∧
    h'.store.namespaces = h.store.namespaces ∧
    h'.store.mappings = h.store.mappings ∧
    h'.tags = h.tags ∧
    h'.namespaces = h.namespaces ∧
    h.lastHashId ≤ h'.lastHashId ∧
    h'.lastTagId = h.lastTagId ∧
    (∀ r ∈ h'.store.hashes, r ∈ h.store.hashes ∨ h.lastHashId < r.1) ∧
    (∃ bytes, fromhex f = some bytes ∧ (id, bytes) ∈ h'.store.hashes) := by
  obtain ⟨hH1, hH2, hT1, hT2, hC⟩ := hwf
  cases hfx : fromhex f with
  | none =>
    simp only [HTA.ensureHash, hfx] at hok
    cases hok
  | some bytes =>
    simp only [HTA.ensureHash, hfx] at hok
    cases hfind : findIdByBytes h.store.hashes bytes with
    | some i =>
      simp only [hfind] at hok
      injection hok with hok
      injection hok with h1 h2
      subst h1; subst h2
      exact ⟨⟨hH1, hH2, hT1, hT2, hC⟩, SubStart.refl _, rfl, rfl, rfl, rfl, rfl,
        Nat.le.refl, rfl, fun r hr => Or.inl hr,
        ⟨bytes, rfl, findIdBySnd_some_mem _ _ _ hfind⟩⟩
    | none =>
      simp only [hfind] at hok
      injection hok with hok
      injection hok with h1 h2
      subst h1; subst h2
      have hnotin := findIdBySnd_none _ _ hfind
      refine ⟨⟨?_, ?_, hT1, hT2, hC⟩, SubStart.append _ _, rfl, rfl, rfl, rfl, rfl,
        Nat.le_succ _, rfl, ?_, ⟨bytes, rfl, ?_⟩⟩
      · intro r hr
        show 1 ≤ r.1 ∧ r.1 ≤ h.lastHashId + 1
        rcases List.mem_append.mp hr with h1 | h1
        · have := hH1 r h1
          omega
        · rcases List.mem_singleton.mp h1 with rfl
          show 1 ≤ h.lastHashId + 1 ∧ h.lastHashId + 1 ≤ h.lastHashId + 1
          omega
      · show (h.store.hashes ++ [(h.lastHashId + 1, bytes)]).Pairwise _
        rw [List.pairwise_append]
        refine ⟨hH2, List.pairwise_singleton _ _, ?_⟩
        intro a ha b hb
        rcases List.mem_singleton.mp hb with rfl
        have := hH1 a ha
        exact ⟨show a.1 ≠ h.lastHashId + 1 by omega, hnotin a ha⟩
      · intro r hr
        rcases List.mem_append.mp hr with h1 | h1
        · exact Or.inl h1
        · rcases List.mem_singleton.mp h1 with rfl
          exact Or.inr (show h.lastHashId < h.lastHashId + 1 by omega)
      · exact List.mem_append_right _ (List.mem_singleton.mpr rfl)

/-- What the namespace-registration step does: all tables and caches
except the namespaces are untouched, and the tag's namespace ends up in
the in-memory set. -/
theorem ensureNs_spec (h : HTA) (t : Tag) :
    (ensureNs h t).store.hashes = h.store.hashes ∧
    (ensureNs h t).store.tags = h.store.tags ∧
    (ensureNs h t).store.mappings = h.store.mappings ∧
    (ensureNs h t).tags = h.tags ∧
    (ensureNs h t).lastHashId = h.lastHashId ∧
    (ensureNs h t).lastTagId = h.lastTagId ∧
    (∀ n ∈ h.namespaces, n ∈ (ensureNs h t).namespaces) ∧
    (∀ n v, t = Tag.ns n v → n ∈ (ensureNs h t).namespaces) ∧
    (WF h → WF (ensureNs h t)) := by
  cases t with
  | plain v =>
    refine ⟨rfl, rfl, rfl, rfl, rfl, rfl, fun n hn => hn, ?_, fun hwf => hwf⟩
    intro n v' hnv
    cases hnv
  | ns n v =>
    by_cases hn : n ∈ h.namespaces
    · refine ⟨?_, ?_, ?_, ?_, ?_, ?_, ?_, ?_, ?_⟩ <;>
        simp only [ensureNs, if_pos hn]
      · exact fun n' hn' => hn'
      · intro n' v' hnv
        injection hnv with h1 _
        subst h1
        exact hn
      · exact fun hwf => hwf
    · refine ⟨?_, ?_, ?_, ?_, ?_, ?_, ?_, ?_, ?_⟩ <;>
        simp only [ensureNs, if_neg hn]
      · exact fun n' hn' => List.mem_cons_of_mem _ hn'
      · intro n' v' hnv
        injection hnv with h1 _
        subst h1
        exact List.mem_cons_self _ _
      · exact fun hwf => hwf

/-- What the resolution step of `_ensure_tag` does: existing tag rows are
preserved in place, the other tables and counters are untouched, the
`_tags` cache only grows, a fresh id (if any) is `lastTagId + 1`, above
every old id, and the resolved id is persisted for the canonical text. -/
theorem resolveTag_spec (g : HTA) (tag : Str) (hwf : WF g) :
    WF (resolveTag g tag).2 ∧
    SubStart g.store.tags (resolveTag g tag).2.store.tags ∧
    (resolveTag g tag).2.store.hashes = g.store.hashes ∧
    (resolveTag g tag).2.store.mappings = g.store.mappings ∧
    (resolveTag g tag).2.store.namespaces = g.store.namespaces ∧
    (resolveTag g tag).2.namespaces = g.namespaces ∧
    (resolveTag g tag).2.lastHashId = g.lastHashId ∧
    g.lastTagId ≤ (resolveTag g tag).2.lastTagId ∧
    (∀ e ∈ g.tags, e ∈ (resolveTag g tag).2.tags) ∧
    (∀ r ∈ (resolveTag g tag).2.store.tags, r ∈ g.store.tags ∨ g.lastTagId < r.1) ∧
    ((resolveTag g tag).1, tag) ∈ (resolveTag g tag).2.store.tags := by
  obtain ⟨hH1, hH2, hT1, hT2, hC⟩ := hwf
  cases hre : resolveTag g tag with
  | mk id h' =>
    cases hcache : getItem g.tags tag with
    | some cached =>
      simp only [resolveTag, hcache] at hre
      injection hre with h1 h2
      subst h1; subst h2
      exact ⟨⟨hH1, hH2, hT1, hT2, hC⟩, SubStart.refl _, rfl, rfl, rfl, rfl, rfl,
        Nat.le.refl, fun e he => he, fun r hr => Or.inl hr,
        hC _ (getItem_mem _ _ _ hcache)⟩
    | none =>
      simp only [resolveTag, hcache] at hre
      cases hfind : findIdByText g.store.tags tag with
      | some i =>
        have hmem : (i, tag) ∈ g.store.tags := findIdBySnd_some_mem _ _ _ hfind
        simp only [hfind] at hre
        injection hre with h1 h2
        subst h1; subst h2
        refine ⟨⟨hH1, hH2, hT1, hT2, ?_⟩, SubStart.refl _, rfl, rfl, rfl, rfl, rfl,
          Nat.le.refl, fun e he => List.mem_cons_of_mem _ he,
          fun r hr => Or.inl hr, hmem⟩
        intro c hcmem
        rcases List.mem_cons.mp hcmem with h1 | h1
        · subst h1; exact hmem
        · exact hC c h1
      | none =>
        simp only [hfind] at hre
        injection hre with h1 h2
        subst h1; subst h2
        have hnotin := findIdBySnd_none _ _ hfind
        refine ⟨⟨hH1, hH2, ?_, ?_, ?_⟩, SubStart.append _ _, rfl, rfl, rfl, rfl,
          rfl, Nat.le_succ _, fun e he => he, ?_, ?_⟩
        · intro r hr
          show 1 ≤ r.1 ∧ r.1 ≤ g.lastTagId + 1
          rcases List.mem_append.mp hr with h1 | h1
          · have := hT1 r h1
            omega
          · rcases List.mem_singleton.mp h1 with rfl
            show 1 ≤ g.lastTagId + 1 ∧ g.lastTagId + 1 ≤ g.lastTagId + 1
            omega
        · show (g.store.tags ++ [(g.lastTagId + 1, tag)]).Pairwise _
          rw [List.pairwise_append]
          refine ⟨hT2, List.pairwise_singleton _ _, ?_⟩
          intro a ha b hb
          rcases List.mem_singleton.mp hb with rfl
          have := hT1 a ha
          exact ⟨show a.1 ≠ g.lastTagId + 1 by omega, hnotin a ha⟩
        · intro c hcmem
          exact List.mem_append_left _ (hC c hcmem)
        · intro r hr
          rcases List.mem_append.mp hr with h1 | h1
          · exact Or.inl h1
          · rcases List.mem_singleton.mp h1 with rfl
            exact Or.inr (show g.lastTagId < g.lastTagId + 1 by omega)
        · exact List.mem_append_right _ (List.mem_singleton.mpr rfl)

/-- Combined effect of `_ensure_tag` on the handle. -/
theorem ensureTag_spec (h : HTA) (t : Tag) (hwf : WF h) :
    WF (h.ensureTag t).2 ∧
    SubStart h.store.tags (h.ensureTag t).2.store.tags ∧
    (h.ensureTag t).2.store.hashes = h.store.hashes ∧
    (h.ensureTag t).2.store.mappings = h.store.mappings ∧
    (h.ensureTag t).2.lastHashId = h.lastHashId ∧
    h.lastTagId ≤ (h.ensureTag t).2.lastTagId ∧
    (∀ e ∈ h.tags, e ∈ (h.ensureTag t).2.tags) ∧
    (∀ n ∈ h.namespaces, n ∈ (h.ensureTag t).2.namespaces) ∧
    (∀ n v, t = Tag.ns n v → n ∈ (h.ensureTag t).2.namespaces) ∧
    (∀ r ∈ (h.ensureTag t).2.store.tags, r ∈ h.store.tags ∨ h.lastTagId < r.1) ∧
    ((h.ensureTag t).1, canonical t) ∈ (h.ensureTag t).2.store.tags := by
  obtain ⟨hnH, hnT, hnM, hnC, hnLH, hnLT, hnNs, hnNsT, hnWF⟩ := ensureNs_spec h t
  obtain ⟨rWF, rSub, rH, rM, rNsStore, rNs, rLH, rLT, rCache, rAbove, rRes⟩ :=
    resolveTag_spec (ensureNs h t) (canonical t) (hnWF hwf)
  unfold HTA.ensureTag
  refine ⟨rWF, ?_, ?_, ?_, ?_, ?_, ?_, ?_, ?_, ?_, rRes⟩
  · rw [← hnT]; exact rSub
  · rw [rH, hnH]
  · rw [rM, hnM]
  · rw [rLH, hnLH]
  · rw [← hnLT]; exact rLT
  · intro e he
    rw [← hnC] at he
    exact rCache e he
  · intro n hn
    rw [rNs]
    exact hnNs n hn
  · intro n v hnv
    rw [rNs]
    exact hnNsT n v hnv
  · intro r hr
    rcases rAbove r hr with h1 | h1
    · rw [hnT] at h1; exact Or.inl h1
    · rw [hnLT] at h1; exact Or.inr h1

/-- Effect of the tag-resolution fold of `add_tags` on the handle and the
accumulated membership pairs. -/
theorem fold_ensure_spec (hashId : Nat) (ts : List Tag) :
    ∀ (h0 : HTA) (p0 : List (Nat × Nat)) (h1 : HTA) (ps : List (Nat × Nat)),
      WF h0 → ts.foldl (addTagsStep hashId) (h0, p0) = (h1, ps) →
      WF h1 ∧
      SubStart h0.store.tags h1.store.tags ∧
      h1.store.hashes = h0.store.hashes ∧
      h1.store.mappings = h0.store.mappings ∧
      h1.lastHashId = h0.lastHashId ∧
      h0.lastTagId ≤ h1.lastTagId ∧
      (∀ e ∈ h0.tags, e ∈ h1.tags) ∧
      (∀ n ∈ h0.namespaces, n ∈ h1.namespaces) ∧
      (∀ r ∈ h1.store.tags, r ∈ h0.store.tags ∨ h0.lastTagId < r.1) ∧
      (∀ q ∈ p0, q ∈ ps) ∧
      (∀ q ∈ ps, q ∈ p0 ∨ ∃ tid t, t ∈ ts ∧ q = (hashId, tid) ∧
        (tid, canonical t) ∈ h1.store.tags) ∧
      (∀ t ∈ ts, ∃ tid, (hashId, tid) ∈ ps ∧ (tid, canonical t) ∈ h1.store.tags ∧
        ∀ n v, t = Tag.ns n v → n ∈ h1.namespaces) := by
  induction ts with
  | nil =>
    intro h0 p0 h1 ps hwf heq
    rw [List.foldl_nil] at heq
    injection heq with he1 he2
    subst he1; subst he2
    exact ⟨hwf, SubStart.refl _, rfl, rfl, rfl, Nat.le.refl, fun e he => he,
      fun n hn => hn, fun r hr => Or.inl hr, fun q hq => hq,
      fun q hq => Or.inl hq, fun t ht => absurd ht (List.not_mem_nil t)⟩
  | cons t ts' ih =>
    intro h0 p0 h1 ps hwf heq
    rw [List.foldl_cons] at heq
    obtain ⟨eWF, eSub, eH, eM, eLH, eLT, eCache, eNs, eNsT, eAbove, eRes⟩ :=
      ensureTag_spec h0 t hwf
    obtain ⟨fWF, fSub, fH, fM, fLH, fLT, fCache, fNs, fAbove, fKeep, fChar, fTags⟩ :=
      ih (h0.ensureTag t).2 (p0 ++ [(hashId, (h0.ensureTag t).1)]) h1 ps eWF heq
    refine ⟨fWF, SubStart.trans eSub fSub, by rw [fH, eH], by rw [fM, eM],
      by rw [fLH, eLH], Nat.le_trans eLT fLT,
      fun e he => fCache e (eCache e he),
      fun n hn => fNs n (eNs n hn), ?_, ?_, ?_, ?_⟩
    · intro r hr
      rcases fAbove r hr with h1r | h1r
      · rcases eAbove r h1r with h2r | h2r
        · exact Or.inl h2r
        · exact Or.inr h2r
      · exact Or.inr (Nat.lt_of_le_of_lt eLT h1r)
    · intro q hq
      exact fKeep q (List.mem_append_left _ hq)
    · intro q hq
      rcases fChar q hq with h1q | h1q
      · rcases List.mem_append.mp h1q with h2q | h2q
        · exact Or.inl h2q
        · rcases List.mem_singleton.mp h2q with rfl
          exact Or.inr ⟨(h0.ensureTag t).1, t, List.mem_cons_self _ _, rfl,
            SubStart.mem fSub eRes⟩
      · obtain ⟨tid, t', ht', hq', hres⟩ := h1q
        exact Or.inr ⟨tid, t', List.mem_cons_of_mem _ ht', hq', hres⟩
    · intro t' ht'
      rcases List.mem_cons.mp ht' with h1t | h1t
      · subst h1t
        refine ⟨(h0.ensureTag t').1,
          fKeep _ (List.mem_append_right _ (List.mem_singleton.mpr rfl)),
          SubStart.mem fSub eRes, ?_⟩
        intro n v hnv
        exact fNs n (eNsT n v hnv)
      · obtain ⟨tid, hpair, hres, hns⟩ := fTags t' h1t
        exact ⟨tid, hpair, hres, hns⟩

/-- C4: over the life of one open handle, `add_tags` preserves the §3
identity invariants: identities stay 1-based, bounded by the in-memory
high-water marks (the source of truth for the next assignment), each
distinct hash bytes value and each distinct canonical tag text keeps
exactly one row (`WF`); existing rows are preserved in place (`SubStart`),
the high-water marks only grow, and every row not present before carries
an identity strictly above the old high-water mark — so identities are
assigned monotonically and never reused. -/
theorem c4_identity_invariants (h : HTA) (f : Str) (ts : List Tag) (h' : HTA)
    (hwf : WF h) (hok : h.addTags f ts = .ok h') :
    WF h' ∧
    SubStart h.store.hashes h'.store.hashes ∧
    SubStart h.store.tags h'.store.tags ∧
    h.lastHashId ≤ h'.lastHashId ∧
    h.lastTagId ≤ h'.lastTagId ∧
    (∀ r ∈ h'.store.hashes, r ∈ h.store.hashes ∨ h.lastHashId < r.1) ∧
    (∀ r ∈ h'.store.tags, r ∈ h.store.tags ∨ h.lastTagId < r.1) := by
  cases hH : h.ensureHash f with
  | error e =>
    simp only [HTA.addTags, hH] at hok
    cases hok
  | ok pair =>
    obtain ⟨hashId, hA⟩ := pair
    simp only [HTA.addTags, hH] at hok
    cases hFold : ts.foldl (addTagsStep hashId) (hA, ([] : List (Nat × Nat))) with
    | mk hB pairs =>
      simp only [hFold] at hok
      injection hok with hok
      subst hok
      obtain ⟨aWF, aSub, aT, aNs, aM, aC, aNsC, aLH, aLT, aAbove, _⟩ :=
        ensureHash_spec h f hashId hA hwf hH
      obtain ⟨fWF, fSub, fH, fM, fLH, fLT, fCache, fNs, fAbove, _, _, _⟩ :=
        fold_ensure_spec hashId ts hA [] hB pairs aWF hFold
      obtain ⟨bH1, bH2, bT1, bT2, bC⟩ := fWF
      refine ⟨⟨bH1, bH2, bT1, bT2, bC⟩, ?_, ?_, ?_, ?_, ?_, ?_⟩
      · show SubStart h.store.hashes hB.store.hashes
        rw [fH]
        exact aSub
      · show SubStart h.store.tags hB.store.tags
        rw [← aT]
        exact fSub
      · show h.lastHashId ≤ hB.lastHashId
        rw [fLH]
        exact aLH
      · show h.lastTagId ≤ hB.lastTagId
        rw [← aLT]
        exact fLT
      · show ∀ r ∈ hB.store.hashes, r ∈ h.store.hashes ∨ h.lastHashId < r.1
        intro r hr
        rw [fH] at hr
        exact aAbove r hr
      · show ∀ r ∈ hB.store.tags, r ∈ h.store.tags ∨ h.lastTagId < r.1
        intro r hr
        rcases fAbove r hr with h1 | h1
        · rw [aT] at h1
          exact Or.inl h1
        · rw [aLT] at h1
          exact Or.inr h1

theorem c4_witness :
    WF ((freshHTA.addTags (toL "abcd")
          [Tag.ns (toL "uc") (toL "lowres"), Tag.plain (toL "1girl")]).toOption.getD freshHTA) ∧
    SubStart freshHTA.store.hashes
      ((freshHTA.addTags (toL "abcd")
          [Tag.ns (toL "uc") (toL "lowres"), Tag.plain (toL "1girl")]).toOption.getD freshHTA).store.hashes ∧
    SubStart freshHTA.store.tags
      ((freshHTA.addTags (toL "abcd")
          [Tag.ns (toL "uc") (toL "lowres"), Tag.plain (toL "1girl")]).toOption.getD freshHTA).store.tags ∧
    freshHTA.lastHashId ≤
      ((freshHTA.addTags (toL "abcd")
          [Tag.ns (toL "uc") (toL "lowres"), Tag.plain (toL "1girl")]).toOption.getD freshHTA).lastHashId ∧
    freshHTA.lastTagId ≤
      ((freshHTA.addTags (toL "abcd")
          [Tag.ns (toL "uc") (toL "lowres"), Tag.plain (toL "1girl")]).toOption.getD freshHTA).lastTagId ∧
    (∀ r ∈ ((freshHTA.addTags (toL "abcd")
          [Tag.ns (toL "uc") (toL "lowres"), Tag.plain (toL "1girl")]).toOption.getD freshHTA).store.hashes,
        r ∈ freshHTA.store.hashes ∨ freshHTA.lastHashId < r.1) ∧
    (∀ r ∈ ((freshHTA.addTags (toL "abcd")
          [Tag.ns (toL "uc") (toL "lowres"), Tag.plain (toL "1girl")]).toOption.getD freshHTA).store.tags,
        r ∈ freshHTA.store.tags ∨ freshHTA.lastTagId < r.1) :=
  c4_identity_invariants freshHTA (toL "abcd")
    [Tag.ns (toL "uc") (toL "lowres"), Tag.plain (toL "1girl")] _
    (by decide) (by decide)

/-- A namespace already in the in-memory set is not re-registered. -/
theorem ensureNs_nochange (g : HTA) (t : Tag)
    (hns : ∀ n v, t = Tag.ns n v → n ∈ g.namespaces) : ensureNs g t = g := by
  cases t with
  | plain v => rfl
  | ns n v =>
    simp only [ensureNs, if_pos (hns n v rfl)]

/-- Resolving a tag whose canonical text is already persisted (and whose
namespace is already known) touches no table: it returns the persisted
identity, at most caching it. -/
theorem ensureTag_nochange (g : HTA) (t : Tag) (hwf : WF g) (tid₀ : Nat)
    (hres : (tid₀, canonical t) ∈ g.store.tags)
    (hns : ∀ n v, t = Tag.ns n v → n ∈ g.namespaces) :
    (g.ensureTag t).2.store = g.store ∧ (g.ensureTag t).1 = tid₀ ∧
    WF (g.ensureTag t).2 ∧
    (g.ensureTag t).2.namespaces = g.namespaces ∧
    (g.ensureTag t).2.lastHashId = g.lastHashId ∧
    (g.ensureTag t).2.lastTagId = g.lastTagId := by
  obtain ⟨hH1, hH2, hT1, hT2, hC⟩ := hwf
  have hunf : g.ensureTag t = resolveTag g (canonical t) := by
    unfold HTA.ensureTag
    rw [ensureNs_nochange g t hns]
  rw [hunf]
  cases hcache : getItem g.tags (canonical t) with
  | some cached =>
    have hmem : (canonical t, cached) ∈ g.tags := getItem_mem _ _ _ hcache
    have hsound : (cached, canonical t) ∈ g.store.tags := hC _ hmem
    have hid : cached = tid₀ := snd_unique hT2 hsound hres
    simp only [resolveTag, hcache]
    refine ⟨?_, ?_, ⟨hH1, hH2, hT1, hT2, hC⟩, ?_, ?_, ?_⟩ <;>
      first | exact hid | trivial
  | none =>
    obtain ⟨j, hj⟩ := findIdBySnd_mem_isSome hres
    have hjmem : (j, canonical t) ∈ g.store.tags := findIdBySnd_some_mem _ _ _ hj
    have hid : j = tid₀ := snd_unique hT2 hjmem hres
    have hfind : findIdByText g.store.tags (canonical t) = some j := hj
    simp only [resolveTag, hcache, hfind]
    refine ⟨?_, ?_, ⟨hH1, hH2, hT1, hT2, ?_⟩, ?_, ?_, ?_⟩
    · trivial
    · exact hid
    · intro c hcmem
      rcases List.mem_cons.mp hcmem with h1 | h1
      · subst h1; exact hjmem
      · exact hC c h1
    · trivial
    · trivial
    · trivial

/-- When every tag of the list already resolves in the store and all
namespaces are known, the resolution fold leaves the store untouched and
every accumulated pair is a persisted resolution. -/
theorem fold_nochange (hashId : Nat) (ts : List Tag) :
    ∀ (g : HTA), WF g →
      (∀ t ∈ ts, (∃ tid, (tid, canonical t) ∈ g.store.tags) ∧
        (∀ n v, t = Tag.ns n v → n ∈ g.namespaces)) →
      ∀ (p0 : List (Nat × Nat)) (g' : HTA) (ps : List (Nat × Nat)),
        ts.foldl (addTagsStep hashId) (g, p0) = (g', ps) →
        g'.store = g.store ∧ WF g' ∧
        (∀ q ∈ ps, q ∈ p0 ∨ ∃ tid t, t ∈ ts ∧ q = (hashId, tid) ∧
          (tid, canonical t) ∈ g.store.tags) := by
  induction ts with
  | nil =>
    intro g hwf hcond p0 g' ps heq
    rw [List.foldl_nil] at heq
    injection heq with he1 he2
    subst he1; subst he2
    exact ⟨rfl, hwf, fun q hq => Or.inl hq⟩
  | cons t ts' ih =>
    intro g hwf hcond p0 g' ps heq
    rw [List.foldl_cons] at heq
    obtain ⟨⟨tid₀, htid₀⟩, hnst⟩ := hcond t (List.mem_cons_self _ _)
    obtain ⟨nStore, nId, nWF, nNs, nLH, nLT⟩ :=
      ensureTag_nochange g t hwf tid₀ htid₀ hnst
    have hcond' : ∀ t' ∈ ts', (∃ tid, (tid, canonical t') ∈
        (g.ensureTag t).2.store.tags) ∧
        (∀ n v, t' = Tag.ns n v → n ∈ (g.ensureTag t).2.namespaces) := by
      intro t' ht'
      obtain ⟨⟨tid, htid⟩, hns'⟩ := hcond t' (List.mem_cons_of_mem _ ht')
      rw [nStore, nNs]
      exact ⟨⟨tid, htid⟩, hns'⟩
    obtain ⟨iStore, iWF, iChar⟩ :=
      ih (g.ensureTag t).2 nWF hcond' (p0 ++ [(hashId, (g.ensureTag t).1)]) g' ps heq
    refine ⟨by rw [iStore, nStore], iWF, ?_⟩
    intro q hq
    rcases iChar q hq with h1 | h1
    · rcases List.mem_append.mp h1 with h2 | h2
      · exact Or.inl h2
      · rcases List.mem_singleton.mp h2 with rfl
        exact Or.inr ⟨(g.ensureTag t).1, t, List.mem_cons_self _ _, rfl,
          nId ▸ htid₀⟩
    · obtain ⟨tid, t', ht', hq', hres'⟩ := h1
      rw [nStore] at hres'
      exact Or.inr ⟨tid, t', List.mem_cons_of_mem _ ht', hq', hres'⟩

/-- C5: `add_tags` is idempotent on the persisted state: a second call
with the same content hash and tag list succeeds and leaves every table —
hashes, tags, namespaces, mappings — exactly as the first call left it
(only the in-memory cache may warm up). -/
theorem c5_addTags_idempotent (h h1 : HTA) (f : Str) (ts : List Tag)
    (hwf : WF h) (h1ok : h.addTags f ts = .ok h1) :
    ∃ h2, h1.addTags f ts = .ok h2 ∧ h2.store = h1.store := by
  cases hH : h.ensureHash f with
  | error e =>
    simp only [HTA.addTags, hH] at h1ok
    cases h1ok
  | ok pair =>
    obtain ⟨hashId, hA⟩ := pair
    simp only [HTA.addTags, hH] at h1ok
    cases hFold : ts.foldl (addTagsStep hashId) (hA, ([] : List (Nat × Nat))) with
    | mk hB pairs =>
      simp only [hFold] at h1ok
      injection h1ok with h1ok
      obtain ⟨aWF, aSub, aT, aNs, aM, aC, aNsC, aLH, aLT, aAbove, bytes, hbyt, hmemA⟩ :=
        ensureHash_spec h f hashId hA hwf hH
      obtain ⟨fWF, fSub, fH, fM, fLH, fLT, fCache, fNs, fAbove, fKeep, fChar, fTags⟩ :=
        fold_ensure_spec hashId ts hA [] hB pairs aWF hFold
      obtain ⟨bH1, bH2, bT1, bT2, bC⟩ := fWF
      have e1 : h1.store.hashes = hB.store.hashes := by rw [← h1ok]
      have e2 : h1.store.tags = hB.store.tags := by rw [← h1ok]
      have e3 : h1.store.mappings = pairs.foldl insertMapping hB.store.mappings := by
        rw [← h1ok]
      have e5 : h1.namespaces = hB.namespaces := by rw [← h1ok]
      have hwf1 : WF h1 := by
        rw [← h1ok]
        exact ⟨bH1, bH2, bT1, bT2, bC⟩
      obtain ⟨bH1', bH2', bT1', bT2', bC'⟩ := hwf1
      have hmemB : (hashId, bytes) ∈ h1.store.hashes := by
        rw [e1, fH]
        exact hmemA
      obtain ⟨j, hj⟩ := findIdBySnd_mem_isSome hmemB
      have hjid : j = hashId := snd_unique bH2' (findIdBySnd_some_mem _ _ _ hj) hmemB
      subst hjid
      have hjB : findIdByBytes h1.store.hashes bytes = some j := hj
      have h2H : h1.ensureHash f = .ok (j, h1) := by
        simp only [HTA.ensureHash, hbyt, hjB]
      have hcond : ∀ t ∈ ts, (∃ tid, (tid, canonical t) ∈ h1.store.tags) ∧
          (∀ n v, t = Tag.ns n v → n ∈ h1.namespaces) := by
        intro t ht
        obtain ⟨tid, hpair, hres, hns⟩ := fTags t ht
        refine ⟨⟨tid, ?_⟩, ?_⟩
        · rw [e2]
          exact hres
        · intro n v hnv
          rw [e5]
          exact hns n v hnv
      have hwf1' : WF h1 := ⟨bH1', bH2', bT1', bT2', bC'⟩
      cases hFold2 : ts.foldl (addTagsStep j) (h1, ([] : List (Nat × Nat))) with
      | mk h1' pairs2 =>
        obtain ⟨iStore, iWF, iChar⟩ :=
          fold_nochange j ts h1 hwf1' hcond [] h1' pairs2 hFold2
        have hallin : ∀ q ∈ pairs2, q ∈ h1'.store.mappings := by
          intro q hq
          rcases iChar q hq with h0 | h0
          · exact absurd h0 (List.not_mem_nil q)
          · obtain ⟨tid, t, ht, hqeq, hres⟩ := h0
            obtain ⟨tid1, hpair1, hres1, _⟩ := fTags t ht
            rw [← e2] at hres1
            have htid : tid = tid1 := snd_unique bT2' hres hres1
            subst hqeq
            rw [htid, iStore, e3]
            exact foldl_insertMapping_mem pairs _ _ hpair1
        have habs : pairs2.foldl insertMapping h1'.store.mappings
            = h1'.store.mappings :=
          foldl_insertMapping_absorb pairs2 _ hallin
        refine ⟨{h1' with store := {h1'.store with
            mappings := pairs2.foldl insertMapping h1'.store.mappings}}, ?_, ?_⟩
        · simp only [HTA.addTags, h2H, hFold2]
        · show {h1'.store with
              mappings := pairs2.foldl insertMapping h1'.store.mappings} = h1.store
          rw [habs, ← iStore]

theorem c5_witness :
    ∃ h2, (HTA.addTags
        ((freshHTA.addTags (toL "abcd")
          [Tag.ns (toL "uc") (toL "lowres"), Tag.plain (toL "1girl")]).toOption.getD freshHTA)
        (toL "abcd")
        [Tag.ns (toL "uc") (toL "lowres"), Tag.plain (toL "1girl")]) = .ok h2 ∧
      h2.store = ((freshHTA.addTags (toL "abcd")
          [Tag.ns (toL "uc") (toL "lowres"), Tag.plain (toL "1girl")]).toOption.getD freshHTA).store :=
  c5_addTags_idempotent freshHTA _ (toL "abcd")
    [Tag.ns (toL "uc") (toL "lowres"), Tag.plain (toL "1girl")]
    (by decide) (by decide)

end Nai2hta
